import Mathlib

/-!
Verification of the sudoku-lite-web puzzle engine (src/utils/sudoku.ts and
src/utils/hebrewChars.ts) against its natural-language specification.

The engine works on `number[][]` boards.  We embed a board as
`List (List Nat)`.  JavaScript array reads out of range yield `undefined`;
we model a cell read as an `Option Nat`, with `none` playing the role of
`undefined` (`undefined === num` is false for every number `num`, and
`undefined !== 0` is true, which is what the source relies on).

The in-place mutation of the source is embedded by explicit state passing:
each mutating function takes the board and returns the updated board.
`Math.random`-driven shuffles are modelled by an oracle
`R : Nat → Nat → List Nat`: the k-th call of `shuffleArray` on an array of
length n reorders it by the index list `R k n` (a permutation of
`0..n-1` for a real random shuffle; theorems that need this assume
`GoodR R`).  Recursions of the source that terminate by a decreasing
number of empty cells are given an explicit fuel argument; callers pass
`countZeros board + 1`, which the termination arguments show is enough.
-/

/-- `SudokuBoard = number[][]` from the source. -/
abbrev SudokuBoard := List (List Nat)

/-- The three strategy tags of `type Strategy` in the source:
`'Naked Single' | 'Backtracking' | 'Advanced'`. -/
inductive Strategy where
  | nakedSingle
  | backtracking
  | advanced
deriving DecidableEq, Repr

/-- Reading `board[i][j]`: `none` models JavaScript `undefined`. -/
def cellAt (board : SudokuBoard) (i j : Nat) : Option Nat :=
  (board.get? i).bind (fun row => row.get? j)

/-- Writing `board[i][j] = v` (no-op out of range; the source only writes
in range). -/
def setCell (board : SudokuBoard) (i j v : Nat) : SudokuBoard :=
  board.set i ((board.getD i []).set j v)

/-- `createEmptyBoard` from the source: a size×size grid of zeros. -/
def createEmptyBoard (size : Nat) : SudokuBoard :=
  List.replicate size (List.replicate size 0)

/-- `boardCopy` from the source: `board.map(row => [...row])`. -/
def boardCopy (board : SudokuBoard) : SudokuBoard :=
  board.map (fun row => row.map (fun x => x))

/-- Number of zero entries on the whole board. -/
def countZeros (board : SudokuBoard) : Nat :=
  (board.map (fun row => (row.filter (fun x => x == 0)).length)).sum

/-- The board is a square grid: every row as long as the list of rows. -/
def squareB (board : SudokuBoard) : Bool :=
  board.all (fun row => row.length == board.length)

/-- `isValidPlacement` from the source: scans row `row` and column `col`
of the top-left size×size window for an occurrence of `num`.  Note that
the loops run over the whole row and the whole column, including the
target cell `(row, col)` itself. -/
def isValidPlacement (board : SudokuBoard) (row col num : Nat) : Bool :=
  let size := board.length
  ((List.range size).all (fun i => !(cellAt board row i == some num))) &&
  ((List.range size).all (fun i => !(cellAt board i col == some num)))

/-- All coordinates of the size×size window in row-major order (the
nested `for i ... for j ...` loops of the source). -/
def allCells (size : Nat) : List (Nat × Nat) :=
  (List.range size).flatMap (fun i => (List.range size).map (fun j => (i, j)))

/-- `findEmptyCell` from the source: first cell of the window holding 0,
in row-major order. -/
def findEmptyCell (board : SudokuBoard) : Option (Nat × Nat) :=
  (allCells board.length).find? (fun rc => cellAt board rc.1 rc.2 == some 0)

/-- The duplicate scan that `isBoardValid` performs on one row or one
column with a JS `Set`: walk the cells, skip values `=== 0`, fail on a
value seen before.  A `none` cell (JS `undefined`) passes the `!== 0`
test and is tracked by the set like any other value. -/
def scanDup : List (Option Nat) → List (Option Nat) → Bool
  | [], _ => true
  | c :: rest, seen =>
    if c ≠ some 0 then
      if c ∈ seen then false else scanDup rest (c :: seen)
    else scanDup rest seen

/-- Row `i` of the scanned window: cells `board[i][0..size-1]`. -/
def rowCells (board : SudokuBoard) (i : Nat) : List (Option Nat) :=
  (List.range board.length).map (fun j => cellAt board i j)

/-- Column `j` of the scanned window: cells `board[0..size-1][j]`. -/
def colCells (board : SudokuBoard) (j : Nat) : List (Option Nat) :=
  (List.range board.length).map (fun i => cellAt board i j)

/-- `isBoardValid` from the source: the duplicate scan over every row and
every column of the top-left size×size window, size being the number of
rows. -/
def isBoardValid (board : SudokuBoard) : Bool :=
  let size := board.length
  ((List.range size).all (fun i => scanDup (rowCells board i) [])) &&
  ((List.range size).all (fun j => scanDup (colCells board j) []))

/-- The claim's reading of `isValidPlacement` (spec §4.1): `value` occurs
at no cell of the row other than `(row,col)` and at no cell of the column
other than `(row,col)`; the target cell itself is not examined. -/
def claimValidPlacement (board : SudokuBoard) (row col num : Nat) : Bool :=
  let size := board.length
  ((List.range size).all (fun i => i == col || !(cellAt board row i == some num))) &&
  ((List.range size).all (fun i => i == row || !(cellAt board i col == some num)))

/-- The claim's reading of `isBoardValid` (spec §4.1): no row of the board
and no column of the board contains a duplicate non-zero value, where the
rows are the actual row lists and column `j` collects the `j`-th entry of
every row that has one. -/
def claimBoardValid (board : SudokuBoard) : Bool :=
  let maxLen := (board.map List.length).foldr max 0
  (board.all (fun row => ((row.filter (fun x => !(x == 0))).Nodup : Bool))) &&
  ((List.range maxLen).all (fun j =>
    (((board.filterMap (fun row => row.get? j)).filter (fun x => !(x == 0))).Nodup : Bool)))

/-! ### hebrewChars.ts -/

/-- `interface HebrewChar` from hebrewChars.ts.  The `value` field is a
JS number; we use `Int` so that values outside `1..9` (including
negatives) can be looked up. -/
structure HebrewChar where
  char : String
  color : String
  value : Int
deriving DecidableEq, Repr

/-- `type GameVariant` from hebrewChars.ts. -/
inductive GameVariant where
  | chinese
  | alphabet
  | colors
deriving DecidableEq, Repr

/-- `FULL_CHINESE_CHARS` from hebrewChars.ts. -/
def FULL_CHINESE_CHARS : List HebrewChar :=
  [⟨"一", "#FF0000", 1⟩, ⟨"二", "#FFA500", 2⟩, ⟨"三", "#FFFF00", 3⟩,
   ⟨"五", "#00EE00", 4⟩, ⟨"六", "#4169E1", 5⟩, ⟨"七", "#FF00FF", 6⟩,
   ⟨"八", "#23dbcf", 7⟩, ⟨"九", "#945206", 8⟩, ⟨"十", "#404040", 9⟩]

/-- `FULL_HEBREW_CHARS` from hebrewChars.ts. -/
def FULL_HEBREW_CHARS : List HebrewChar :=
  [⟨"א", "#FF0000", 1⟩, ⟨"ב", "#FFA500", 2⟩, ⟨"ג", "#FFFF00", 3⟩,
   ⟨"ד", "#00EE00", 4⟩, ⟨"ה", "#4169E1", 5⟩, ⟨"מ", "#FF00FF", 6⟩,
   ⟨"צ", "#23dbcf", 7⟩, ⟨"ש", "#945206", 8⟩, ⟨"ת", "#404040", 9⟩]

/-- `COLOR_CHARS` from hebrewChars.ts. -/
def COLOR_CHARS : List HebrewChar :=
  [⟨"■", "#FF0000", 1⟩, ⟨"■", "#FFA500", 2⟩, ⟨"■", "#FFFF00", 3⟩,
   ⟨"■", "#00EE00", 4⟩, ⟨"■", "#4169E1", 5⟩, ⟨"■", "#FF00FF", 6⟩,
   ⟨"■", "#23dbcf", 7⟩, ⟨"■", "#945206", 8⟩, ⟨"■", "#404040", 9⟩]

/-- The `source` table selected by both lookup functions. -/
def charSource (variant : GameVariant) : List HebrewChar :=
  match variant with
  | GameVariant.chinese => FULL_CHINESE_CHARS
  | GameVariant.alphabet => FULL_HEBREW_CHARS
  | GameVariant.colors => COLOR_CHARS

/-- `getHebrewChar` from hebrewChars.ts: find the entry with the given
value, or the sentinel record when there is none. -/
def getHebrewChar (value : Int) (variant : GameVariant) : HebrewChar :=
  match (charSource variant).find? (fun c => c.value == value) with
  | some c => c
  | none => ⟨"", "#000000", 0⟩

/-! ### Randomness model and the solver / filler -/

/-- Reorder `l` by an index list `p` (`l.get? i` for each `i` of `p`).
When `p` is a permutation of `0..l.length-1`, this is a permutation of
`l` — the effect of the source's Fisher–Yates `shuffleArray`. -/
def shuffleWith (p : List Nat) (l : List α) : List α :=
  p.filterMap (fun i => l.get? i)

/-- A shuffle oracle is `good` when every one of its answers is a genuine
permutation of the index range, i.e. it behaves like `shuffleArray` for
some sequence of `Math.random` draws. -/
def GoodR (R : Nat → Nat → List Nat) : Prop :=
  ∀ k n, (R k n).Perm (List.range n)

/-- `Array.from({length: size}, (_, i) => i + 1)`: the list `1..n`. -/
def oneToN (n : Nat) : List Nat :=
  (List.range n).map (fun i => i + 1)

/-- `strategiesUsed.add(tag)` on a JS `Set`, embedded as a duplicate-free
list: append the tag unless it is already present. -/
def insertStrategy (s : List Strategy) (t : Strategy) : List Strategy :=
  if t ∈ s then s else s ++ [t]

/-- The candidate loop of `solveWithStrategies`: place each candidate in
turn, recurse through `solve`, and reset the cell to 0 when the recursive
call fails.  The accumulator type is abstract so that the same loop also
drives the visit-count instrumentation below. -/
def tryCands {σ : Type} (solve : SudokuBoard → σ → Bool × SudokuBoard × σ)
    (row col : Nat) : List Nat → SudokuBoard → σ → Bool × SudokuBoard × σ
  | [], board, s => (false, board, s)
  | num :: rest, board, s =>
    match solve (setCell board row col num) s with
    | (true, board2, s2) => (true, board2, s2)
    | (false, board2, s2) => tryCands solve row col rest (setCell board2 row col 0) s2

/-- `solveWithStrategies` from the source, with explicit fuel.  Each
recursive call fills one empty cell, so any fuel exceeding the number of
zero cells reproduces the source exactly; with fuel 0 the function gives
up (this case is unreachable under adequate fuel). -/
def solveWithStrategiesAux : Nat → SudokuBoard → List Strategy → Bool × SudokuBoard × List Strategy
  | 0, board, s => (false, board, s)
  | fuel+1, board, s =>
    match findEmptyCell board with
    | none => (true, board, s)
    | some (row, col) =>
      let candidates := (oneToN board.length).filter
        (fun num => isValidPlacement board row col num)
      let s2 := if candidates.length == 1 then insertStrategy s Strategy.nakedSingle
                else if 1 < candidates.length then insertStrategy s Strategy.backtracking
                else s
      tryCands (solveWithStrategiesAux fuel) row col candidates board s2

/-- `solveWithStrategies` at the adequate fuel used at every call site. -/
def solveWithStrategies (board : SudokuBoard) (s : List Strategy) :
    Bool × SudokuBoard × List Strategy :=
  solveWithStrategiesAux (countZeros board + 1) board s

/-- Instrumented twin of `solveWithStrategiesAux`: identical control flow
(the strategy accumulator of the original is never read), but instead of
strategy tags it records, for every empty cell the search visits, the
number of candidates that cell had at visit time. -/
def solveVisitsAux : Nat → SudokuBoard → List Nat → Bool × SudokuBoard × List Nat
  | 0, board, log => (false, board, log)
  | fuel+1, board, log =>
    match findEmptyCell board with
    | none => (true, board, log)
    | some (row, col) =>
      let candidates := (oneToN board.length).filter
        (fun num => isValidPlacement board row col num)
      tryCands (solveVisitsAux fuel) row col candidates board (log ++ [candidates.length])

/-- The candidate loop of `fillBoard`: numbers are tried in the shuffled
order and validity is re-checked inside the loop, exactly as in the
source; the random counter is threaded through. -/
def tryNums (solve : Nat → SudokuBoard → Bool × SudokuBoard × Nat)
    (row col : Nat) : List Nat → Nat → SudokuBoard → Bool × SudokuBoard × Nat
  | [], k, board => (false, board, k)
  | num :: rest, k, board =>
    if isValidPlacement board row col num then
      match solve k (setCell board row col num) with
      | (true, board2, k2) => (true, board2, k2)
      | (false, board2, k2) => tryNums solve row col rest k2 (setCell board2 row col 0)
    else tryNums solve row col rest k board

/-- `fillBoard` from the source, with explicit fuel and shuffle
counter. -/
def fillBoardAux (R : Nat → Nat → List Nat) : Nat → Nat → SudokuBoard → Bool × SudokuBoard × Nat
  | 0, k, board => (false, board, k)
  | fuel+1, k, board =>
    match findEmptyCell board with
    | none => (true, board, k)
    | some (row, col) =>
      let nums := shuffleWith (R k board.length) (oneToN board.length)
      tryNums (fillBoardAux R fuel) row col nums (k+1) board

/-- `generateBoard` from the source: fill an empty board (the Bool
result of `fillBoard` is discarded).  `size*size + 1` fuel covers every
cell plus the final completeness check. -/
def generateBoard (R : Nat → Nat → List Nat) (size : Nat) : SudokuBoard :=
  (fillBoardAux R (size * size + 1) 0 (createEmptyBoard size)).2.1

/-! ### The two removal algorithms -/

/-- `getStrategySet` from the source; any difficulty other than
`easy`/`medium` falls into the `else` branch, as in the source's
if/else-if/else chain. -/
def getStrategySet (difficulty : String) : List Strategy :=
  if difficulty == "easy" then [Strategy.nakedSingle]
  else if difficulty == "medium" then [Strategy.nakedSingle, Strategy.backtracking]
  else [Strategy.nakedSingle, Strategy.backtracking, Strategy.advanced]

/-- `getTargetCellsToRemove` from the source.  Its `switch` has no
default branch, so an unrecognized difficulty yields JS `undefined`,
modelled as `none`.  `Math.floor(totalCells * 0.4)` is the rational floor
`2*totalCells/5` (and `0.6`, `0.75` likewise); for the board sizes of
this program the double-precision products round to values with the same
floor. -/
def getTargetCellsToRemove (size : Nat) (difficulty : String) : Option Nat :=
  let totalCells := size * size
  if difficulty == "easy" then some (totalCells * 2 / 5)
  else if difficulty == "medium" then some (totalCells * 3 / 5)
  else if difficulty == "hard" then some (totalCells * 3 / 4)
  else none

/-- The target computation inlined in `removeNumbers`: same fractions,
but the `default` case falls back to the easy fraction. -/
def getTargetEmptyCells (size : Nat) (difficulty : String) : Nat :=
  let totalCells := size * size
  if difficulty == "easy" then totalCells * 2 / 5
  else if difficulty == "medium" then totalCells * 3 / 5
  else if difficulty == "hard" then totalCells * 3 / 4
  else totalCells * 2 / 5

/-- The removal loop of `removeNumbers`.  The list argument is the order
in which cells are popped (JS `Array.pop` removes the LAST element, so
the pop order is the reverse of the shuffled coordinate array).  Each
iteration zeroes the popped cell, re-solves a copy, and keeps the removal
exactly when the solve succeeded, restoring the backup otherwise. -/
def removeLoop (target maxAttempts : Nat) :
    List (Nat × Nat) → SudokuBoard → Nat → Nat → SudokuBoard
  | [], puzzle, _, _ => puzzle
  | (row, col) :: rest, puzzle, removed, attempts =>
    if removed < target ∧ attempts < maxAttempts then
      let backup := (puzzle.getD row []).getD col 0
      let puzzle2 := setCell puzzle row col 0
      if (solveWithStrategies (boardCopy puzzle2) []).1 then
        removeLoop target maxAttempts rest puzzle2 (removed + 1) (attempts + 1)
      else
        removeLoop target maxAttempts rest (setCell puzzle2 row col backup) removed (attempts + 1)
    else puzzle

/-- `removeNumbers` from the source. -/
def removeNumbers (R : Nat → Nat → List Nat) (board : SudokuBoard) (difficulty : String) :
    SudokuBoard :=
  let size := board.length
  let target := getTargetEmptyCells size difficulty
  let puzzle := boardCopy board
  let popOrder := (shuffleWith (R 0 (size * size)) (allCells size)).reverse
  removeLoop target (size * size * 2) popOrder puzzle 0 0

/-- JS `removedCells < targetCellsToRemove` where the target may be
`undefined`: any `<` comparison against `undefined` is false. -/
def belowTarget (targetOpt : Option Nat) (removed : Nat) : Bool :=
  match targetOpt with
  | none => false
  | some t => decide (removed < t)

/-- The `while (cellAttempts < maxAttemptsPerCell)` retry loop of
`removeNumbersStrategically`: repeatedly solve the (mutated) copy,
returning true as soon as an attempt solves it using only target
strategies; the solver's board and accumulated strategy set persist
across retries exactly as in the source. -/
def cellTrialLoop (targetStrategies : List Strategy) :
    Nat → SudokuBoard → List Strategy → Bool
  | 0, _, _ => false
  | n+1, puzzleCopy, strategiesUsed =>
    match solveWithStrategies puzzleCopy strategiesUsed with
    | (ok, pc2, su2) =>
      if ok && su2.all (fun t => targetStrategies.contains t) then true
      else cellTrialLoop targetStrategies n pc2 su2

/-- The removal loop of `removeNumbersStrategically` (cells again listed
in pop order). -/
def stratRemoveLoop (targetStrategies : List Strategy) (targetOpt : Option Nat)
    (maxAttempts : Nat) : List (Nat × Nat) → SudokuBoard → Nat → Nat → SudokuBoard
  | [], puzzle, _, _ => puzzle
  | (row, col) :: rest, puzzle, removed, attempts =>
    if belowTarget targetOpt removed && decide (attempts < maxAttempts) then
      let backup := (puzzle.getD row []).getD col 0
      let puzzle2 := setCell puzzle row col 0
      let canRemove := cellTrialLoop targetStrategies 3 (boardCopy puzzle2) []
      if canRemove then
        stratRemoveLoop targetStrategies targetOpt maxAttempts rest puzzle2
          (removed + 1) (attempts + 1)
      else
        stratRemoveLoop targetStrategies targetOpt maxAttempts rest
          (setCell puzzle2 row col backup) removed (attempts + 1)
    else puzzle

/-- `removeNumbersStrategically` from the source (default
`maxAttempts = 60`). -/
def removeNumbersStrategically (R : Nat → Nat → List Nat) (fullBoard : SudokuBoard)
    (targetStrategies : List Strategy) (difficulty : String)
    (maxAttempts : Nat := 60) : SudokuBoard :=
  let size := fullBoard.length
  let puzzle := boardCopy fullBoard
  let targetCellsToRemove := getTargetCellsToRemove size difficulty
  let popOrder := (shuffleWith (R 0 (size * size)) (allCells size)).reverse
  stratRemoveLoop targetStrategies targetCellsToRemove maxAttempts popOrder puzzle 0 0

/-! ### completeBoard -/

/-- The up-front scan of `completeBoard` for all empty cells of the
window, in row-major order. -/
def findAllEmpty (board : SudokuBoard) : List (Nat × Nat) :=
  (allCells board.length).filter (fun rc => cellAt board rc.1 rc.2 == some 0)

/-- The greedy single pass of `completeBoard`: for each pre-scanned empty
cell, shuffle `1..size` and place the first value passing
`isValidPlacement`; a cell with no valid candidate aborts the pass
(`none`).  The returned counter records the shuffles consumed. -/
def greedyFill (R : Nat → Nat → List Nat) (size : Nat) :
    List (Nat × Nat) → Nat → SudokuBoard → Option SudokuBoard × Nat
  | [], k, board => (some board, k)
  | (row, col) :: rest, k, board =>
    let candidates := shuffleWith (R k size) (oneToN size)
    match candidates.find? (fun num => isValidPlacement board row col num) with
    | some num => greedyFill R size rest (k + 1) (setCell board row col num)
    | none => (none, k + 1)

/-- `completeBoard` from the source.  The source, on a failed pass,
recurses on a fresh copy of the original input with no bound at all; the
fuel argument counts the restarts our embedding is willing to make, and
`none` means the source would still be restarting (it has not produced a
board within `fuel` passes). -/
def completeBoardAux (R : Nat → Nat → List Nat) : Nat → Nat → SudokuBoard → Option SudokuBoard
  | 0, _, _ => none
  | fuel+1, k, board =>
    let completedBoard := boardCopy board
    let emptyCells := findAllEmpty completedBoard
    match greedyFill R completedBoard.length emptyCells k completedBoard with
    | (some b, _) => some b
    | (none, k2) => completeBoardAux R fuel k2 (boardCopy board)

/-- `completeBoard board` fails to terminate under the random choices
`R`: no number of restart passes ever produces a board. -/
def CompleteBoardDiverges (R : Nat → Nat → List Nat) (board : SudokuBoard) : Prop :=
  ∀ fuel k, completeBoardAux R fuel k board = none

/-! ### Basic lemmas about the board primitives -/

theorem set_of_get? {α : Type} : ∀ (l : List α) (n : Nat) (a : α),
    l.get? n = some a → l.set n a = l
  | [], _, _, h => by cases h
  | x :: t, 0, a, h => by
    simp only [List.get?_cons_zero, Option.some.injEq] at h
    simp [h]
  | x :: t, n+1, a, h => by
    simp only [List.get?_cons_succ] at h
    simp [List.set, set_of_get? t n a h]

theorem getD_nil_eq (l : SudokuBoard) (n : Nat) : l.getD n [] = (l.get? n).getD [] := by
  simp [List.getD_eq_getElem?_getD, List.get?_eq_getElem?]

theorem cellAt_some {b : SudokuBoard} {i j v : Nat} (h : cellAt b i j = some v) :
    ∃ row, b.get? i = some row ∧ row.get? j = some v ∧ b.getD i [] = row := by
  unfold cellAt at h
  rcases Option.bind_eq_some.mp h with ⟨row, hrow, hval⟩
  exact ⟨row, hrow, hval, by rw [getD_nil_eq, hrow]; rfl⟩

theorem cellAt_bounds {b : SudokuBoard} {i j v : Nat} (h : cellAt b i j = some v) :
    i < b.length ∧ j < (b.getD i []).length := by
  rcases cellAt_some h with ⟨row, hrow, hval, hD⟩
  refine ⟨(List.get?_eq_some.mp hrow).choose, ?_⟩
  rw [hD]
  exact (List.get?_eq_some.mp hval).choose

theorem setCell_oob_row {b : SudokuBoard} {i j v : Nat} (h : b.length ≤ i) :
    setCell b i j v = b := by
  unfold setCell
  exact List.set_eq_of_length_le h

theorem setCell_oob_col {b : SudokuBoard} {i j v : Nat} (hi : i < b.length)
    (h : (b.getD i []).length ≤ j) : setCell b i j v = b := by
  unfold setCell
  rw [List.set_eq_of_length_le h]
  rcases List.get?_eq_get (by exact hi) with hg
  have : b.getD i [] = b.get ⟨i, hi⟩ := by rw [getD_nil_eq, hg]; rfl
  rw [this]
  exact set_of_get? b i _ (by rw [hg])

theorem setCell_length (b : SudokuBoard) (i j v : Nat) :
    (setCell b i j v).length = b.length := by
  unfold setCell; exact List.length_set b _ _

theorem length_getD_setCell (b : SudokuBoard) (i j v r : Nat) :
    ((setCell b i j v).getD r []).length = (b.getD r []).length := by
  by_cases hi : i < b.length
  · by_cases hr : r = i
    · subst hr
      unfold setCell
      rw [getD_nil_eq, List.get?_set_eq_of_lt _ hi]
      simp [getD_nil_eq, List.get?_eq_get hi]
    · unfold setCell
      rw [getD_nil_eq, List.get?_set_ne _ _ (fun hh => hr hh.symm), ← getD_nil_eq]
  · rw [setCell_oob_row (Nat.le_of_not_lt hi)]

theorem cellAt_setCell_self {b : SudokuBoard} {i j : Nat} (v : Nat)
    (hi : i < b.length) (hj : j < (b.getD i []).length) :
    cellAt (setCell b i j v) i j = some v := by
  unfold cellAt setCell
  rw [List.get?_set_eq_of_lt _ hi]
  simp only [Option.some_bind]
  exact List.get?_set_eq_of_lt v hj

theorem cellAt_setCell_ne {b : SudokuBoard} {i j r c : Nat} (v : Nat)
    (h : r ≠ i ∨ c ≠ j) : cellAt (setCell b i j v) r c = cellAt b r c := by
  rcases h with h | h
  · unfold cellAt setCell
    rw [List.get?_set_ne _ _ (fun hh => h hh.symm)]
  · by_cases hr : r = i
    · subst hr
      by_cases hi : r < b.length
      · unfold cellAt setCell
        rw [List.get?_set_eq_of_lt _ hi]
        have hD : b.getD r [] = (b.get? r).getD [] := getD_nil_eq b r
        rw [List.get?_eq_get hi] at hD
        simp only [Option.getD_some] at hD
        rw [List.get?_eq_get hi]
        simp only [Option.some_bind, hD]
        exact List.get?_set_ne _ _ (fun hh => h hh.symm)
      · rw [setCell_oob_row (Nat.le_of_not_lt hi)]
    · unfold cellAt setCell
      rw [List.get?_set_ne _ _ (fun hh => hr hh.symm)]

theorem setCell_setCell (b : SudokuBoard) (i j v w : Nat) :
    setCell (setCell b i j v) i j w = setCell b i j w := by
  by_cases hi : i < b.length
  · unfold setCell
    rw [List.set_set]
    congr 1
    rw [getD_nil_eq, List.get?_set_eq_of_lt _ hi]
    simp only [Option.getD_some]
    rw [List.set_set]
  · rw [setCell_oob_row (Nat.le_of_not_lt hi), setCell_oob_row (Nat.le_of_not_lt hi)]

theorem setCell_cancel {b : SudokuBoard} {i j v : Nat} (h : cellAt b i j = some v) :
    setCell b i j v = b := by
  rcases cellAt_some h with ⟨row, hrow, hval, hD⟩
  unfold setCell
  rw [hD, set_of_get? row j v hval]
  exact set_of_get? b i row hrow

theorem setCell_of_cellAt_none {b : SudokuBoard} {i j : Nat} (v : Nat)
    (h : cellAt b i j = none) : setCell b i j v = b := by
  by_cases hi : i < b.length
  · refine setCell_oob_col hi ?_
    unfold cellAt at h
    rw [List.get?_eq_get hi] at h
    simp only [Option.some_bind] at h
    have hD : b.getD i [] = b.get ⟨i, hi⟩ := by
      rw [getD_nil_eq, List.get?_eq_get hi]; rfl
    rw [hD]
    exact Nat.le_of_not_lt (fun hlt => by
      rw [List.get?_eq_get hlt] at h; cases h)
  · exact setCell_oob_row (Nat.le_of_not_lt hi)

/-! ### countZeros lemmas -/

theorem zrow_set : ∀ (l : List Nat) (c v w : Nat), l.get? c = some w →
    ((l.set c v).filter (fun x => x == 0)).length + (if w = 0 then 1 else 0)
      = (l.filter (fun x => x == 0)).length + (if v = 0 then 1 else 0)
  | [], _, _, _, h => by cases h
  | a :: t, 0, v, w, h => by
    simp only [List.get?_cons_zero, Option.some.injEq] at h
    subst h
    simp only [List.set, List.filter_cons, beq_iff_eq]
    by_cases hv : v = 0 <;> by_cases ha : a = 0 <;> simp [hv, ha]
  | a :: t, c+1, v, w, h => by
    simp only [List.get?_cons_succ] at h
    have ih := zrow_set t c v w h
    simp only [List.set, List.filter_cons, beq_iff_eq]
    by_cases ha : a = 0 <;> simp [ha] <;> omega

theorem countZeros_set_row : ∀ (b : SudokuBoard) (r : Nat) (row newRow : List Nat),
    b.get? r = some row →
    countZeros (b.set r newRow) + (row.filter (fun x => x == 0)).length
      = countZeros b + (newRow.filter (fun x => x == 0)).length
  | [], _, _, _, h => by cases h
  | x :: t, 0, row, newRow, h => by
    simp only [List.get?_cons_zero, Option.some.injEq] at h
    subst h
    simp only [List.set, countZeros, List.map_cons, List.sum_cons]
    omega
  | x :: t, r+1, row, newRow, h => by
    simp only [List.get?_cons_succ] at h
    have ih := countZeros_set_row t r row newRow h
    simp only [List.set, countZeros, List.map_cons, List.sum_cons] at *
    omega

theorem countZeros_setCell {b : SudokuBoard} {r c w : Nat} (v : Nat)
    (h : cellAt b r c = some w) :
    countZeros (setCell b r c v) + (if w = 0 then 1 else 0)
      = countZeros b + (if v = 0 then 1 else 0) := by
  rcases cellAt_some h with ⟨row, hrow, hval, hD⟩
  have h1 := countZeros_set_row b r row (row.set c v) hrow
  have h2 := zrow_set row c v w hval
  unfold setCell
  rw [hD]
  omega

theorem countZeros_setCell_fill {b : SudokuBoard} {r c : Nat} (v : Nat)
    (h : cellAt b r c = some 0) (hv : v ≠ 0) :
    countZeros (setCell b r c v) + 1 = countZeros b := by
  have := countZeros_setCell v h
  rw [if_pos rfl, if_neg hv] at this
  omega

theorem countZeros_setCell_zero_le (b : SudokuBoard) (r c : Nat) :
    countZeros (setCell b r c 0) ≤ countZeros b + 1 := by
  cases hc : cellAt b r c with
  | none => rw [setCell_of_cellAt_none 0 hc]; omega
  | some w =>
    have := countZeros_setCell 0 hc
    rw [if_pos rfl] at this
    by_cases hw : w = 0
    · rw [if_pos hw] at this; omega
    · rw [if_neg hw] at this; omega

/-! ### allCells, findEmptyCell, shuffleWith -/

theorem mem_allCells {n : Nat} {rc : Nat × Nat} : rc ∈ allCells n ↔ rc.1 < n ∧ rc.2 < n := by
  rcases rc with ⟨a, b⟩
  unfold allCells
  simp only [List.mem_flatMap, List.mem_map, List.mem_range, Prod.mk.injEq]
  constructor
  · rintro ⟨i, hi, j, hj, ha, hb⟩
    subst ha; subst hb; exact ⟨hi, hj⟩
  · rintro ⟨ha, hb⟩
    exact ⟨a, ha, b, hb, rfl, rfl⟩

theorem findEmptyCell_some {b : SudokuBoard} {r c : Nat}
    (h : findEmptyCell b = some (r, c)) :
    cellAt b r c = some 0 ∧ r < b.length ∧ c < b.length := by
  have h1 := List.find?_some h
  have h2 := List.mem_of_find?_eq_some h
  rw [mem_allCells] at h2
  refine ⟨?_, h2.1, h2.2⟩
  simpa using h1

theorem findEmptyCell_none {b : SudokuBoard} (h : findEmptyCell b = none) :
    ∀ r c, r < b.length → c < b.length → cellAt b r c ≠ some 0 := by
  intro r c hr hc
  have := List.find?_eq_none.mp h (r, c) (mem_allCells.mpr ⟨hr, hc⟩)
  simpa using this

theorem shuffleWith_range {α : Type} (l : List α) :
    shuffleWith (List.range l.length) l = l := by
  unfold shuffleWith
  induction l with
  | nil => rfl
  | cons a t ih =>
    rw [List.length_cons, List.range_succ_eq_map, List.filterMap_cons, List.filterMap_map]
    have hcomp : ((fun i => (a :: t).get? i) ∘ Nat.succ) = (fun i => t.get? i) := by
      funext i; simp
    simp only [List.get?_cons_zero, hcomp, ih]

theorem shuffleWith_perm {α : Type} {p : List Nat} {l : List α}
    (h : p.Perm (List.range l.length)) : (shuffleWith p l).Perm l := by
  have h1 : (shuffleWith p l).Perm (shuffleWith (List.range l.length) l) :=
    h.filterMap (fun i => l.get? i)
  rwa [shuffleWith_range] at h1

theorem mem_of_mem_shuffleWith {α : Type} {p : List Nat} {l : List α} {x : α}
    (h : x ∈ shuffleWith p l) : x ∈ l := by
  unfold shuffleWith at h
  rcases List.mem_filterMap.mp h with ⟨i, _, hi⟩
  exact List.get?_mem hi

theorem mem_oneToN {n v : Nat} : v ∈ oneToN n ↔ 1 ≤ v ∧ v ≤ n := by
  unfold oneToN
  simp only [List.mem_map, List.mem_range]
  constructor
  · rintro ⟨i, hi, rfl⟩; omega
  · rintro ⟨h1, h2⟩; exact ⟨v - 1, by omega, by omega⟩

theorem boardCopy_eq (b : SudokuBoard) : boardCopy b = b := by
  unfold boardCopy
  have : ∀ row : List Nat, row.map (fun x => x) = row := fun row => List.map_id' row
  simp only [this, List.map_id']

/-! ### Restoration on failure -/

theorem tryCands_false {σ : Type} (solve : SudokuBoard → σ → Bool × SudokuBoard × σ)
    (hsolve : ∀ b s b2 s2, solve b s = (false, b2, s2) → b2 = b) (row col : Nat) :
    ∀ (l : List Nat) (b : SudokuBoard) (s : σ) (b2 : SudokuBoard) (s2 : σ),
      cellAt b row col = some 0 →
      tryCands solve row col l b s = (false, b2, s2) → b2 = b
  | [], b, s, b2, s2, _, h => by
    simp only [tryCands, Prod.mk.injEq] at h
    exact h.2.1.symm
  | num :: rest, b, s, b2, s2, hb, h => by
    simp only [tryCands] at h
    split at h
    · simp at h
    · next b3 s3 heq =>
      have hb3 : b3 = setCell b row col num := hsolve _ _ _ _ heq
      rw [hb3, setCell_setCell, setCell_cancel hb] at h
      exact tryCands_false solve hsolve row col rest b s3 b2 s2 hb h

theorem tryNums_false (solve : Nat → SudokuBoard → Bool × SudokuBoard × Nat)
    (hsolve : ∀ k b b2 k2, solve k b = (false, b2, k2) → b2 = b) (row col : Nat) :
    ∀ (l : List Nat) (k : Nat) (b : SudokuBoard) (b2 : SudokuBoard) (k2 : Nat),
      cellAt b row col = some 0 →
      tryNums solve row col l k b = (false, b2, k2) → b2 = b
  | [], k, b, b2, k2, _, h => by
    simp only [tryNums, Prod.mk.injEq] at h
    exact h.2.1.symm
  | num :: rest, k, b, b2, k2, hb, h => by
    simp only [tryNums] at h
    by_cases hv : isValidPlacement b row col num = true
    · rw [if_pos hv] at h
      split at h
      · simp at h
      · next b3 k3 heq =>
        have hb3 : b3 = setCell b row col num := hsolve _ _ _ _ heq
        rw [hb3, setCell_setCell, setCell_cancel hb] at h
        exact tryNums_false solve hsolve row col rest k3 b b2 k2 hb h
    · rw [if_neg hv] at h
      exact tryNums_false solve hsolve row col rest k b b2 k2 hb h

theorem solveWithStrategiesAux_false :
    ∀ (fuel : Nat) (b : SudokuBoard) (s : List Strategy) (b2 : SudokuBoard)
      (s2 : List Strategy), solveWithStrategiesAux fuel b s = (false, b2, s2) → b2 = b
  | 0, b, s, b2, s2, h => by
    simp only [solveWithStrategiesAux, Prod.mk.injEq] at h
    exact h.2.1.symm
  | fuel+1, b, s, b2, s2, h => by
    simp only [solveWithStrategiesAux] at h
    split at h
    · simp at h
    · next rc row col heq =>
      have hb := (findEmptyCell_some heq).1
      exact tryCands_false _
        (fun b' s' b2' s2' h' => solveWithStrategiesAux_false fuel b' s' b2' s2' h')
        row col _ b _ b2 s2 hb h

theorem solveVisitsAux_false :
    ∀ (fuel : Nat) (b : SudokuBoard) (s : List Nat) (b2 : SudokuBoard)
      (s2 : List Nat), solveVisitsAux fuel b s = (false, b2, s2) → b2 = b
  | 0, b, s, b2, s2, h => by
    simp only [solveVisitsAux, Prod.mk.injEq] at h
    exact h.2.1.symm
  | fuel+1, b, s, b2, s2, h => by
    simp only [solveVisitsAux] at h
    split at h
    · simp at h
    · next rc row col heq =>
      have hb := (findEmptyCell_some heq).1
      exact tryCands_false _
        (fun b' s' b2' s2' h' => solveVisitsAux_false fuel b' s' b2' s2' h')
        row col _ b _ b2 s2 hb h

theorem fillBoardAux_false (R : Nat → Nat → List Nat) :
    ∀ (fuel k : Nat) (b : SudokuBoard) (b2 : SudokuBoard) (k2 : Nat),
      fillBoardAux R fuel k b = (false, b2, k2) → b2 = b
  | 0, k, b, b2, k2, h => by
    simp only [fillBoardAux, Prod.mk.injEq] at h
    exact h.2.1.symm
  | fuel+1, k, b, b2, k2, h => by
    simp only [fillBoardAux] at h
    split at h
    · simp at h
    · next rc row col heq =>
      have hb := (findEmptyCell_some heq).1
      exact tryNums_false _
        (fun k' b' b2' k2' h' => fillBoardAux_false R fuel k' b' b2' k2' h')
        row col _ _ b b2 k2 hb h

/-! ### Characterizing isBoardValid -/

/-- No non-sentinel cell value occurs twice in the given line of cells. -/
def NoDupCells (l : List (Option Nat)) : Prop :=
  ∀ x, x ≠ some 0 → l.count x ≤ 1

theorem scanDup_iff : ∀ (l seen : List (Option Nat)),
    scanDup l seen = true ↔
      ∀ x, x ≠ some 0 → l.count x ≤ 1 ∧ (x ∈ seen → l.count x = 0)
  | [], seen => by simp [scanDup]
  | c :: rest, seen => by
    by_cases hc : c = some 0
    · rw [show scanDup (c :: rest) seen = scanDup rest seen by
        simp [scanDup, hc]]
      rw [scanDup_iff rest seen]
      constructor
      · intro h x hx
        have hxc : (c == x) = false := by
          subst hc
          exact beq_eq_false_iff_ne.mpr (fun hh => hx hh.symm)
        rw [List.count_cons, hxc]
        simpa using h x hx
      · intro h x hx
        have h1 := h x hx
        have hxc : (c == x) = false := by
          subst hc
          exact beq_eq_false_iff_ne.mpr (fun hh => hx hh.symm)
        rw [List.count_cons, hxc] at h1
        simpa using h1
    · by_cases hm : c ∈ seen
      · rw [show scanDup (c :: rest) seen = false by
          simp [scanDup, hc, hm]]
        simp only [Bool.false_eq_true, false_iff, not_forall]
        refine ⟨c, hc, fun h1 => ?_⟩
        have h2 := h1.2 hm
        simp [List.count_cons] at h2
      · rw [show scanDup (c :: rest) seen = scanDup rest (c :: seen) by
          simp [scanDup, hc, hm]]
        rw [scanDup_iff rest (c :: seen)]
        constructor
        · intro h x hx
          by_cases hxc : x = c
          · subst hxc
            have h2 := (h x hx).2 (List.mem_cons_self x seen)
            refine ⟨?_, fun hmem => absurd hmem hm⟩
            simp [List.count_cons, h2]
          · have h1 := h x hx
            have hbc : (c == x) = false :=
              beq_eq_false_iff_ne.mpr (fun hh => hxc hh.symm)
            rw [List.count_cons, hbc, if_neg (by simp)]
            refine ⟨by have := h1.1; omega, fun hmem => ?_⟩
            have := h1.2 (List.mem_cons_of_mem c hmem)
            omega
        · intro h x hx
          have h1 := h x hx
          by_cases hxc : x = c
          · subst hxc
            have hle := h1.1
            simp [List.count_cons] at hle
            exact ⟨by omega, fun _ => by omega⟩
          · have hbc : (c == x) = false :=
              beq_eq_false_iff_ne.mpr (fun hh => hxc hh.symm)
            rw [List.count_cons, hbc, if_neg (by simp)] at h1
            refine ⟨by have := h1.1; omega, fun hmem => ?_⟩
            rcases List.mem_cons.mp hmem with hxc2 | hseen
            · exact absurd hxc2 hxc
            · have := h1.2 hseen
              omega

theorem scanDup_nil_iff (l : List (Option Nat)) :
    scanDup l [] = true ↔ NoDupCells l := by
  rw [scanDup_iff]
  unfold NoDupCells
  simp

theorem isBoardValid_iff (b : SudokuBoard) :
    isBoardValid b = true ↔
      (∀ i < b.length, NoDupCells (rowCells b i)) ∧
      (∀ j < b.length, NoDupCells (colCells b j)) := by
  unfold isBoardValid
  rw [Bool.and_eq_true, List.all_eq_true, List.all_eq_true]
  simp only [List.mem_range, scanDup_nil_iff]

theorem isValidPlacement_iff (b : SudokuBoard) (r c v : Nat) :
    isValidPlacement b r c v = true ↔
      (∀ i < b.length, cellAt b r i ≠ some v) ∧
      (∀ i < b.length, cellAt b i c ≠ some v) := by
  unfold isValidPlacement
  rw [Bool.and_eq_true, List.all_eq_true, List.all_eq_true]
  simp [List.mem_range]

theorem count_cells_map (f : Nat → Option Nat) (n : Nat) (x : Option Nat) :
    ((List.range n).map f).count x = (List.range n).countP (fun j => f j == x) := by
  rw [List.count, List.countP_map]
  rfl

theorem squareB_iff (b : SudokuBoard) :
    squareB b = true ↔ ∀ row ∈ b, row.length = b.length := by
  unfold squareB
  rw [List.all_eq_true]
  simp

theorem cellAt_of_get {b : SudokuBoard} {i : Nat} {row : List Nat}
    (hrow : b.get? i = some row) {j v : Nat} (hv : row.get? j = some v) :
    cellAt b i j = some v := by
  unfold cellAt
  rw [hrow, Option.some_bind, hv]

theorem map_range_congr {α : Type} {n : Nat} {f g : Nat → α} (h : ∀ j < n, f j = g j) :
    (List.range n).map f = (List.range n).map g := by
  apply List.map_congr_left
  intro j hj
  exact h j (List.mem_range.mp hj)

theorem count_update_other {n c : Nat} {f g : Nat → Option Nat} (x : Option Nat)
    (hagree : ∀ j < n, j ≠ c → g j = f j)
    (hx : c < n → g c ≠ x ∧ f c ≠ x) :
    ((List.range n).map g).count x = ((List.range n).map f).count x := by
  rw [count_cells_map, count_cells_map]
  apply List.countP_congr
  intro j hj
  rw [List.mem_range] at hj
  by_cases hjc : j = c
  · subst hjc
    rw [beq_eq_false_iff_ne.mpr (hx hj).1, beq_eq_false_iff_ne.mpr (hx hj).2]
  · rw [hagree j hj hjc]

theorem count_update_new {n c : Nat} {g : Nat → Option Nat}
    (hc : c < n) (hother : ∀ j < n, j ≠ c → g j ≠ g c) :
    ((List.range n).map g).count (g c) = 1 := by
  rw [count_cells_map]
  have hcongr : (List.range n).countP (fun j => g j == g c)
      = (List.range n).countP (fun j => j == c) := by
    apply List.countP_congr
    intro j hj
    rw [List.mem_range] at hj
    by_cases hjc : j = c
    · subst hjc
      simp
    · rw [beq_eq_false_iff_ne.mpr (hother j hj hjc), beq_eq_false_iff_ne.mpr hjc]
  rw [hcongr]
  exact List.count_eq_one_of_mem (List.nodup_range n) (List.mem_range.mpr hc)

theorem rowCells_setCell (b : SudokuBoard) (r c v i : Nat) :
    rowCells (setCell b r c v) i
      = (List.range b.length).map (fun j => cellAt (setCell b r c v) i j) := by
  unfold rowCells
  rw [setCell_length]

theorem colCells_setCell (b : SudokuBoard) (r c v j : Nat) :
    colCells (setCell b r c v) j
      = (List.range b.length).map (fun i => cellAt (setCell b r c v) i j) := by
  unfold colCells
  rw [setCell_length]

theorem valid_setCell {b : SudokuBoard} {r c v : Nat}
    (hval : isBoardValid b = true) (hcell : cellAt b r c = some 0)
    (hplace : isValidPlacement b r c v = true) :
    isBoardValid (setCell b r c v) = true := by
  have hr : r < b.length := (cellAt_bounds hcell).1
  have hcl : c < (b.getD r []).length := (cellAt_bounds hcell).2
  rw [isBoardValid_iff] at hval
  rw [isBoardValid_iff, setCell_length]
  rw [isValidPlacement_iff] at hplace
  have hself : cellAt (setCell b r c v) r c = some v := cellAt_setCell_self v hr hcl
  constructor
  · intro i hi x hx
    rw [rowCells_setCell]
    by_cases hir : i = r
    · subst hir
      by_cases hcn : c < b.length
      · by_cases hxv : x = some v
        · subst hxv
          have hcnt := count_update_new (n := b.length) (c := c)
            (g := fun j => cellAt (setCell b i c v) i j) hcn
            (fun j hj hjc => by
              show cellAt (setCell b i c v) i j ≠ cellAt (setCell b i c v) i c
              rw [cellAt_setCell_ne v (Or.inr hjc), hself]
              exact hplace.1 j hj)
          simp only [hself] at hcnt
          exact Nat.le_of_eq hcnt
        · have hne1 : cellAt (setCell b i c v) i c ≠ x := by
            rw [hself]; exact fun hh => hxv hh.symm
          have hne2 : cellAt b i c ≠ x := by
            rw [hcell]; exact fun hh => hx hh.symm
          have hcnt := count_update_other (n := b.length) (c := c)
            (g := fun j => cellAt (setCell b i c v) i j)
            (f := fun j => cellAt b i j) x
            (fun j _ hjc => cellAt_setCell_ne v (Or.inr hjc))
            (fun _ => ⟨hne1, hne2⟩)
          rw [hcnt]
          exact hval.1 i hi x hx
      · have hcnt := count_update_other (n := b.length) (c := c)
          (g := fun j => cellAt (setCell b i c v) i j)
          (f := fun j => cellAt b i j) x
          (fun j _ hjc => cellAt_setCell_ne v (Or.inr hjc))
          (fun hcn2 => absurd hcn2 hcn)
        rw [hcnt]
        exact hval.1 i hi x hx
    · rw [map_range_congr (g := fun j => cellAt b i j)
        (fun j _ => cellAt_setCell_ne v (Or.inl hir))]
      rw [show (List.range b.length).map (fun j => cellAt b i j) = rowCells b i from rfl]
      exact hval.1 i hi x hx
  · intro j hj x hx
    rw [colCells_setCell]
    by_cases hjc : j = c
    · subst hjc
      by_cases hxv : x = some v
      · subst hxv
        have hcnt := count_update_new (n := b.length) (c := r)
          (g := fun i => cellAt (setCell b r j v) i j) hr
          (fun i hi hir => by
            show cellAt (setCell b r j v) i j ≠ cellAt (setCell b r j v) r j
            rw [cellAt_setCell_ne v (Or.inl hir), hself]
            exact hplace.2 i hi)
        simp only [hself] at hcnt
        exact Nat.le_of_eq hcnt
      · have hne1 : cellAt (setCell b r j v) r j ≠ x := by
          rw [hself]; exact fun hh => hxv hh.symm
        have hne2 : cellAt b r j ≠ x := by
          rw [hcell]; exact fun hh => hx hh.symm
        have hcnt := count_update_other (n := b.length) (c := r)
          (g := fun i => cellAt (setCell b r j v) i j)
          (f := fun i => cellAt b i j) x
          (fun i _ hir => cellAt_setCell_ne v (Or.inl hir))
          (fun _ => ⟨hne1, hne2⟩)
        rw [hcnt]
        exact hval.2 j hj x hx
    · rw [map_range_congr (g := fun i => cellAt b i j)
        (fun i _ => cellAt_setCell_ne v (Or.inr hjc))]
      rw [show (List.range b.length).map (fun i => cellAt b i j) = colCells b j from rfl]
      exact hval.2 j hj x hx

/-- `p` is `b` with some cells blanked: every cell of `p` is either the
corresponding cell of `b` or an explicit 0. -/
def FrameOf (p b : SudokuBoard) : Prop :=
  ∀ r c, cellAt p r c = cellAt b r c ∨ cellAt p r c = some 0

theorem valid_of_frame {p b : SudokuBoard} (hlen : p.length = b.length)
    (hf : FrameOf p b) (hval : isBoardValid b = true) : isBoardValid p = true := by
  rw [isBoardValid_iff] at hval ⊢
  constructor
  · intro i hi x hx
    have hle : (rowCells p i).count x ≤ (rowCells b i).count x := by
      unfold rowCells
      rw [hlen, count_cells_map, count_cells_map]
      apply List.countP_mono_left
      intro j _ hpj
      rw [beq_iff_eq] at hpj
      rcases hf i j with hsame | hzero
      · rw [beq_iff_eq, ← hsame]
        exact hpj
      · rw [hzero] at hpj
        exact absurd hpj.symm hx
    exact le_trans hle (hval.1 i (hlen ▸ hi) x hx)
  · intro j hj x hx
    have hle : (colCells p j).count x ≤ (colCells b j).count x := by
      unfold colCells
      rw [hlen, count_cells_map, count_cells_map]
      apply List.countP_mono_left
      intro i _ hpj
      rw [beq_iff_eq] at hpj
      rcases hf i j with hsame | hzero
      · rw [beq_iff_eq, ← hsame]
        exact hpj
      · rw [hzero] at hpj
        exact absurd hpj.symm hx
    exact le_trans hle (hval.2 j (hlen ▸ hj) x hx)

/-! ### Full boards and empty-cell bookkeeping -/

theorem countZeros_eq_zero_iff (b : SudokuBoard) :
    countZeros b = 0 ↔ ∀ row ∈ b, ∀ v ∈ row, v ≠ 0 := by
  unfold countZeros
  rw [List.sum_eq_zero_iff]
  constructor
  · intro h row hrow v hv hv0
    have hz := h ((row.filter (fun x => x == 0)).length)
      (List.mem_map.mpr ⟨row, hrow, rfl⟩)
    rw [List.length_eq_zero] at hz
    have hvf : v ∈ row.filter (fun x => x == 0) :=
      List.mem_filter.mpr ⟨hv, by simp [hv0]⟩
    rw [hz] at hvf
    cases hvf
  · intro h x hxmem
    rcases List.mem_map.mp hxmem with ⟨row, hrow, rfl⟩
    rw [List.length_eq_zero, List.filter_eq_nil]
    intro v hv
    simp [h row hrow v hv]

theorem findEmptyCell_none_iff {b : SudokuBoard} (hsq : squareB b = true) :
    findEmptyCell b = none ↔ countZeros b = 0 := by
  rw [countZeros_eq_zero_iff]
  constructor
  · intro h row hrow v hv hv0
    subst hv0
    obtain ⟨⟨i, hilt⟩, hget⟩ := List.mem_iff_get.mp hrow
    obtain ⟨⟨j, hjlt⟩, hgetj⟩ := List.mem_iff_get.mp hv
    have hrowlen := (squareB_iff b).mp hsq row hrow
    have hrow? : b.get? i = some row := by rw [List.get?_eq_get hilt, hget]
    have hval? : row.get? j = some 0 := by rw [List.get?_eq_get hjlt, hgetj]
    exact findEmptyCell_none h i j hilt (by omega) (cellAt_of_get hrow? hval?)
  · intro h
    unfold findEmptyCell
    apply List.find?_eq_none.mpr
    intro rc _
    simp only [Bool.not_eq_true, beq_eq_false_iff_ne]
    intro hc
    rcases cellAt_some hc with ⟨row, hrow, hval, _⟩
    exact h row (List.get?_mem hrow) 0 (List.get?_mem hval) rfl

theorem map_get?_range {α : Type} (l : List α) :
    (List.range l.length).map (fun j => l.get? j) = l.map some := by
  induction l with
  | nil => rfl
  | cons a t ih =>
    rw [List.length_cons, List.range_succ_eq_map, List.map_cons, List.map_map]
    have hcomp : ((fun i => (a :: t).get? i) ∘ Nat.succ) = (fun i => t.get? i) := by
      funext i; simp
    rw [hcomp, ih, List.map_cons]
    rfl

theorem colCells_eq_map (b : SudokuBoard) (j : Nat) :
    colCells b j = b.map (fun row => row.get? j) := by
  unfold colCells cellAt
  have h1 : (List.range b.length).map (fun i => (b.get? i).bind (fun row => row.get? j))
      = ((List.range b.length).map (fun i => b.get? i)).map
          (fun o => o.bind (fun row => row.get? j)) := by
    rw [List.map_map]
    rfl
  rw [h1, map_get?_range, List.map_map]
  apply List.map_congr_left
  intro row _
  rfl

theorem rowCells_eq_map {b : SudokuBoard} {i : Nat} {row : List Nat}
    (hrow : b.get? i = some row) (hlen : row.length = b.length) :
    rowCells b i = row.map some := by
  unfold rowCells cellAt
  rw [hrow]
  simp only [Option.some_bind]
  rw [← hlen, map_get?_range]

theorem count_map_some (l : List Nat) (x : Nat) :
    (l.map some).count (some x) = l.count x := by
  induction l with
  | nil => rfl
  | cons a t ih =>
    rw [List.map_cons, List.count_cons, List.count_cons, ih]
    by_cases ha : a = x
    · subst ha; simp
    · rw [beq_eq_false_iff_ne.mpr (by simpa using ha),
        beq_eq_false_iff_ne.mpr ha]

theorem count_map_some_none (l : List Nat) : (l.map some).count none = 0 := by
  induction l with
  | nil => rfl
  | cons a t ih =>
    rw [List.map_cons, List.count_cons, ih]
    simp

theorem noDupCells_map_some (row : List Nat) :
    NoDupCells (row.map some) ↔ (row.filter (fun x => !(x == 0))).Nodup := by
  unfold NoDupCells
  rw [List.nodup_iff_count_le_one]
  constructor
  · intro h a
    by_cases ha : a = 0
    · subst ha
      have : (List.filter (fun x => !(x == 0)) row).count 0 = 0 := by
        rw [List.count_eq_zero]
        intro hmem
        have := (List.mem_filter.mp hmem).2
        simp at this
      omega
    · rw [List.count_filter (by simpa using ha)]
      have := h (some a) (by simpa using ha)
      rwa [count_map_some] at this
  · intro h x hx
    cases x with
    | none => rw [count_map_some_none]; omega
    | some a =>
      have ha : a ≠ 0 := by simpa using hx
      rw [count_map_some]
      have := h a
      rwa [List.count_filter (by simpa using ha)] at this

theorem getD_zero_eq (l : List Nat) (n : Nat) : l.getD n 0 = (l.get? n).getD 0 := by
  simp [List.getD_eq_getElem?_getD, List.get?_eq_getElem?]

theorem get?_eq_some_getD {l : List Nat} {j : Nat} (hj : j < l.length) :
    l.get? j = some (l.getD j 0) := by
  rw [getD_zero_eq, List.get?_eq_get hj]
  rfl

theorem filterMap_all_some {α β : Type} (f : α → Option β) (g : α → β) :
    ∀ (l : List α), (∀ x ∈ l, f x = some (g x)) → l.filterMap f = l.map g
  | [], _ => rfl
  | x :: t, h => by
    rw [List.filterMap_cons, h x (List.mem_cons_self x t), List.map_cons,
      filterMap_all_some f g t (fun y hy => h y (List.mem_cons_of_mem x hy))]

theorem foldr_max_const : ∀ (l : List Nat) (n : Nat), (∀ x ∈ l, x = n) →
    l = [] ∨ l.foldr max 0 = n
  | [], _, _ => Or.inl rfl
  | x :: t, n, h => Or.inr (by
      have hx : x = n := h x (List.mem_cons_self x t)
      rcases foldr_max_const t n (fun y hy => h y (List.mem_cons_of_mem x hy)) with ht | ht
      · subst ht
        simp [List.foldr, hx]
      · simp [List.foldr, hx, ht])

theorem claimBoardValid_iff (b : SudokuBoard) :
    claimBoardValid b = true ↔
      (∀ row ∈ b, (row.filter (fun x => !(x == 0))).Nodup) ∧
      (∀ j < (b.map List.length).foldr max 0,
        ((b.filterMap (fun row => row.get? j)).filter (fun x => !(x == 0))).Nodup) := by
  unfold claimBoardValid
  rw [Bool.and_eq_true, List.all_eq_true, List.all_eq_true]
  simp only [List.mem_range, decide_eq_true_eq]

/-- Claim C4 counterexample: `isBoardValid` accepts the one-row board
`[[1,1]]` (its scan window is 1×1, `size` being the number of rows) even
though row 0 contains the non-zero value 1 twice, so the claimed
equivalence "true iff no row and no column has a duplicate non-zero
value" fails for non-square boards. -/
theorem C4_counterexample :
    isBoardValid [[1, 1]] = true ∧ claimBoardValid [[1, 1]] = false := by decide

/-- Claim C4 amended: for square boards (every row as long as the list of
rows — which includes the empty board) `isBoardValid` agrees exactly with
the claim's reading "no row and no column contains a duplicate non-zero
value".  On non-square boards the function only inspects the top-left
size×size window, size being the number of rows, so the equivalence can
fail there (see the counterexample). -/
theorem C4_isBoardValid_square (b : SudokuBoard) (hsq : squareB b = true) :
    isBoardValid b = claimBoardValid b := by
  rw [Bool.eq_iff_iff, isBoardValid_iff, claimBoardValid_iff]
  have hsq' := (squareB_iff b).mp hsq
  have hmax : (b.map List.length).foldr max 0 = b.length := by
    rcases foldr_max_const (b.map List.length) b.length
        (fun x hx => by
          rcases List.mem_map.mp hx with ⟨row, hrow, rfl⟩
          exact hsq' row hrow) with hnil | hfold
    · rw [hnil]
      have : b = [] := by
        cases b with
        | nil => rfl
        | cons r t => cases hnil
      rw [this]
      rfl
    · exact hfold
  have hrows : (∀ i < b.length, NoDupCells (rowCells b i)) ↔
      (∀ row ∈ b, (row.filter (fun x => !(x == 0))).Nodup) := by
    constructor
    · intro h row hrow
      obtain ⟨⟨i, hilt⟩, hget⟩ := List.mem_iff_get.mp hrow
      have hrow? : b.get? i = some row := by rw [List.get?_eq_get hilt, hget]
      have hlen : row.length = b.length := hsq' row hrow
      have := h i hilt
      rwa [rowCells_eq_map hrow? hlen, noDupCells_map_some] at this
    · intro h i hi
      have hrow? : b.get? i = some (b.get ⟨i, hi⟩) := List.get?_eq_get hi
      have hmem : b.get ⟨i, hi⟩ ∈ b := List.get_mem b i hi
      have hlen : (b.get ⟨i, hi⟩).length = b.length := hsq' _ hmem
      rw [rowCells_eq_map hrow? hlen, noDupCells_map_some]
      exact h _ hmem
  have hcols : (∀ j < b.length, NoDupCells (colCells b j)) ↔
      (∀ j < (b.map List.length).foldr max 0,
        ((b.filterMap (fun row => row.get? j)).filter (fun x => !(x == 0))).Nodup) := by
    rw [hmax]
    have hcol : ∀ j < b.length,
        colCells b j = (b.map (fun row => row.getD j 0)).map some ∧
        b.filterMap (fun row => row.get? j) = b.map (fun row => row.getD j 0) := by
      intro j hj
      have hsome : ∀ row ∈ b, row.get? j = some (row.getD j 0) := by
        intro row hrow
        exact get?_eq_some_getD (by rw [hsq' row hrow]; exact hj)
      constructor
      · rw [colCells_eq_map]
        rw [show b.map (fun row => row.get? j)
            = b.map (fun row => some (row.getD j 0)) from
          List.map_congr_left hsome]
        rw [List.map_map]
        rfl
      · exact filterMap_all_some _ _ b hsome
    constructor
    · intro h j hj
      rcases hcol j hj with ⟨h1, h2⟩
      have := h j hj
      rw [h1, noDupCells_map_some] at this
      rwa [h2]
    · intro h j hj
      rcases hcol j hj with ⟨h1, h2⟩
      have := h j hj
      rw [h2] at this
      rw [h1, noDupCells_map_some]
      exact this
  rw [hrows, hcols]

/-- Claim C4 amended, instantiated (also covers the empty board, which is
square). -/
theorem C4_witness : isBoardValid [[1, 2], [2, 1]] = claimBoardValid [[1, 2], [2, 1]] :=
  C4_isBoardValid_square [[1, 2], [2, 1]] (by decide)

/-- Claim C5 counterexample: the target cell IS examined.  On the board
`[[1]]` the value 1 occurs at no cell other than the target (0,0) itself,
so the claim predicts `true`, but the source scans the whole row
(including the target cell, which holds 1) and returns `false`. -/
theorem C5_counterexample :
    isValidPlacement [[1]] 0 0 1 = false ∧ claimValidPlacement [[1]] 0 0 1 = true := by
  decide

/-- Claim C5 amended: `isValidPlacement board row col num` is true iff
`num` occurs nowhere among the scanned cells of row `row` and nowhere
among the scanned cells of column `col` — including the target cell
`(row,col)` itself, which the source's two loops do examine. -/
theorem C5_isValidPlacement_iff (b : SudokuBoard) (r c v : Nat) :
    isValidPlacement b r c v = true ↔
      some v ∉ rowCells b r ∧ some v ∉ colCells b c := by
  rw [isValidPlacement_iff]
  unfold rowCells colCells
  simp only [List.mem_map, List.mem_range, not_exists, not_and]

/-- Claim C10: for every value with no entry in the selected variant's
character table (for example any value outside 1..9), `getHebrewChar`
returns the sentinel record `{char: '', color: '#000000', value: 0}`
instead of failing, for every variant. -/
theorem C10_sentinel (value : Int) (variant : GameVariant)
    (h : ∀ e ∈ charSource variant, e.value ≠ value) :
    getHebrewChar value variant = ⟨"", "#000000", 0⟩ := by
  unfold getHebrewChar
  rw [show (charSource variant).find? (fun c => c.value == value) = none from
    List.find?_eq_none.mpr (fun e he => by simpa using h e he)]

/-- Claim C10 instantiated at the out-of-table value 10. -/
theorem C10_witness : getHebrewChar 10 GameVariant.chinese = ⟨"", "#000000", 0⟩ :=
  C10_sentinel 10 GameVariant.chinese (by decide)

/-! ### Frame and shape invariants of the removal loops -/

/-- Same grid dimensions, row by row. -/
def SameShape (p b : SudokuBoard) : Prop :=
  p.length = b.length ∧ ∀ i, (p.getD i []).length = (b.getD i []).length

theorem sameShape_refl (b : SudokuBoard) : SameShape b b :=
  ⟨rfl, fun _ => rfl⟩

theorem sameShape_setCell {p b : SudokuBoard} (h : SameShape p b) (r c v : Nat) :
    SameShape (setCell p r c v) b :=
  ⟨by rw [setCell_length]; exact h.1,
   fun i => by rw [length_getD_setCell]; exact h.2 i⟩

theorem frameOf_refl (b : SudokuBoard) : FrameOf b b :=
  fun _ _ => Or.inl rfl

theorem frameOf_setCell_zero {p b : SudokuBoard} (hf : FrameOf p b) (r c : Nat) :
    FrameOf (setCell p r c 0) b := by
  intro i j
  by_cases hij : i = r ∧ j = c
  · rcases hij with ⟨rfl, rfl⟩
    cases hcell : cellAt p i j with
    | none => rw [setCell_of_cellAt_none 0 hcell]; exact hf i j
    | some w =>
      exact Or.inr (cellAt_setCell_self 0 (cellAt_bounds hcell).1 (cellAt_bounds hcell).2)
  · have hne : i ≠ r ∨ j ≠ c := by tauto
    rw [cellAt_setCell_ne 0 hne]
    exact hf i j

/-- Zeroing a cell and then writing its old value back is the identity
(also when the indices are out of range, where both writes no-op). -/
theorem setCell_zero_restore (p : SudokuBoard) (r c : Nat) :
    setCell (setCell p r c 0) r c ((p.getD r []).getD c 0) = p := by
  rw [setCell_setCell]
  cases hcell : cellAt p r c with
  | none => exact setCell_of_cellAt_none _ hcell
  | some w =>
    have hw : (p.getD r []).getD c 0 = w := by
      rcases cellAt_some hcell with ⟨row, hrow, hval, hD⟩
      rw [hD, getD_zero_eq, hval]
      rfl
    rw [hw]
    exact setCell_cancel hcell

theorem removeLoop_frame (target maxAttempts : Nat) :
    ∀ (cells : List (Nat × Nat)) (puzzle b0 : SudokuBoard) (removed attempts : Nat),
      SameShape puzzle b0 → FrameOf puzzle b0 →
      SameShape (removeLoop target maxAttempts cells puzzle removed attempts) b0 ∧
      FrameOf (removeLoop target maxAttempts cells puzzle removed attempts) b0
  | [], puzzle, b0, removed, attempts, hs, hf => ⟨hs, hf⟩
  | (r, c) :: rest, puzzle, b0, removed, attempts, hs, hf => by
    simp only [removeLoop]
    split
    · split
      · exact removeLoop_frame target maxAttempts rest (setCell puzzle r c 0) b0
          (removed + 1) (attempts + 1) (sameShape_setCell hs r c 0)
          (frameOf_setCell_zero hf r c)
      · rw [setCell_zero_restore]
        exact removeLoop_frame target maxAttempts rest puzzle b0
          removed (attempts + 1) hs hf
    · exact ⟨hs, hf⟩

theorem removeLoop_zeros (target maxAttempts : Nat) :
    ∀ (cells : List (Nat × Nat)) (puzzle : SudokuBoard) (removed attempts : Nat),
      countZeros puzzle ≤ removed → removed ≤ target →
      countZeros (removeLoop target maxAttempts cells puzzle removed attempts) ≤ target
  | [], puzzle, removed, attempts, hz, hr => le_trans hz hr
  | (r, c) :: rest, puzzle, removed, attempts, hz, hr => by
    simp only [removeLoop]
    split
    · next hguard =>
      split
      · exact removeLoop_zeros target maxAttempts rest (setCell puzzle r c 0)
          (removed + 1) (attempts + 1)
          (le_trans (countZeros_setCell_zero_le puzzle r c) (by omega))
          (by omega)
      · rw [setCell_zero_restore]
        exact removeLoop_zeros target maxAttempts rest puzzle removed (attempts + 1) hz hr
    · exact le_trans hz hr

theorem removeNumbers_frame (R : Nat → Nat → List Nat) (b : SudokuBoard) (d : String) :
    SameShape (removeNumbers R b d) b ∧ FrameOf (removeNumbers R b d) b := by
  unfold removeNumbers
  rw [boardCopy_eq]
  exact removeLoop_frame _ _ _ b b 0 0 (sameShape_refl b) (frameOf_refl b)

/-- Claim C9: `removeNumbers` returns the input board with some cells
replaced by 0 and nothing else changed: the output has the same
dimensions, and every cell of the output is either the corresponding
input cell or an explicit 0 (so wherever the output is non-zero it agrees
with the input).  Input mutation does not arise in the embedding — the
source guards against it by operating on `boardCopy(board)`, embedded
here as the pure `boardCopy` applied to the argument. -/
theorem C9_removeNumbers_frame (R : Nat → Nat → List Nat) (b : SudokuBoard) (d : String) :
    SameShape (removeNumbers R b d) b ∧ FrameOf (removeNumbers R b d) b :=
  removeNumbers_frame R b d

/-- Claim C2: on a fully-filled valid square board, `removeNumbers`
yields a board that is still `isBoardValid` and whose number of zero
cells never exceeds `floor(N*N*fraction(difficulty))` with fraction
0.40 / 0.60 / 0.75 for easy/medium/hard and the easy fraction for any
other difficulty string (`getTargetEmptyCells`), for every difficulty
and every sequence of shuffle outcomes. -/
theorem C2_removeNumbers_valid_bounded (R : Nat → Nat → List Nat) (b : SudokuBoard)
    (d : String) (_hsq : squareB b = true) (hfull : countZeros b = 0)
    (hval : isBoardValid b = true) :
    isBoardValid (removeNumbers R b d) = true ∧
      countZeros (removeNumbers R b d) ≤ getTargetEmptyCells b.length d := by
  constructor
  · have hframe := removeNumbers_frame R b d
    exact valid_of_frame hframe.1.1 hframe.2 hval
  · unfold removeNumbers
    rw [boardCopy_eq]
    exact removeLoop_zeros _ _ _ b 0 0 (by omega) (Nat.zero_le _)

/-- Claim C2 instantiated: a concrete full valid 4×4 board, easy
difficulty, identity shuffles. -/
theorem C2_witness :
    isBoardValid (removeNumbers (fun _ n => List.range n)
        [[1, 2, 3, 4], [2, 3, 4, 1], [3, 4, 1, 2], [4, 1, 2, 3]] "easy") = true ∧
      countZeros (removeNumbers (fun _ n => List.range n)
        [[1, 2, 3, 4], [2, 3, 4, 1], [3, 4, 1, 2], [4, 1, 2, 3]] "easy")
        ≤ getTargetEmptyCells
            (List.length [[1, 2, 3, 4], [2, 3, 4, 1], [3, 4, 1, 2], [4, 1, 2, 3]]) "easy" :=
  C2_removeNumbers_valid_bounded (fun _ n => List.range n)
    [[1, 2, 3, 4], [2, 3, 4, 1], [3, 4, 1, 2], [4, 1, 2, 3]] "easy"
    (by decide) (by decide) (by decide)

/-- Claim C3: whenever `fillBoard` or `solveWithStrategies` returns
`false`, the board handed back equals the board handed in cell for cell —
every placement attempted during the failed search has been reset to 0.
This holds for every fuel, shuffle oracle, counter and accumulator. -/
theorem C3_restored_on_false :
    (∀ (R : Nat → Nat → List Nat) (fuel k : Nat) (b b2 : SudokuBoard) (k2 : Nat),
      fillBoardAux R fuel k b = (false, b2, k2) → b2 = b) ∧
    (∀ (fuel : Nat) (b : SudokuBoard) (s : List Strategy) (b2 : SudokuBoard)
      (s2 : List Strategy),
      solveWithStrategiesAux fuel b s = (false, b2, s2) → b2 = b) :=
  ⟨fun R fuel k b b2 k2 h => fillBoardAux_false R fuel k b b2 k2 h,
   fun fuel b s b2 s2 h => solveWithStrategiesAux_false fuel b s b2 s2 h⟩

/-- Claim C3 instantiated at a failing search on the unsolvable board
`[[2,2],[0,0]]`: both solvers fail and hand the board back unchanged. -/
theorem C3_witness :
    ([[2, 2], [0, 0]] : SudokuBoard) = [[2, 2], [0, 0]] ∧
    ([[2, 2], [0, 0]] : SudokuBoard) = [[2, 2], [0, 0]] :=
  ⟨C3_restored_on_false.1 (fun _ n => List.range n) 5 0 [[2, 2], [0, 0]]
      [[2, 2], [0, 0]] 2 (by decide),
   C3_restored_on_false.2 3 [[2, 2], [0, 0]] [] [[2, 2], [0, 0]]
      [Strategy.nakedSingle] (by decide)⟩

/-! ### The strategy-tag bookkeeping of solveWithStrategies -/

theorem mem_insertStrategy {s : List Strategy} {t u : Strategy} :
    t ∈ insertStrategy s u ↔ t ∈ s ∨ t = u := by
  unfold insertStrategy
  by_cases hu : u ∈ s
  · rw [if_pos hu]
    constructor
    · exact Or.inl
    · rintro (h | rfl)
      · exact h
      · exact hu
  · rw [if_neg hu]
    simp

/-- The visit log `vis` forces the tag `t`: a cell with exactly one
candidate forces `Naked Single`, a cell with more than one forces
`Backtracking` (and nothing forces `Advanced`). -/
def TagHit (t : Strategy) (vis : List Nat) : Prop :=
  (t = Strategy.nakedSingle ∧ 1 ∈ vis) ∨
  (t = Strategy.backtracking ∧ ∃ m ∈ vis, 1 < m)

theorem tagHit_nil (t : Strategy) : ¬ TagHit t [] := by
  simp [TagHit]

theorem tagHit_append (t : Strategy) (v1 v2 : List Nat) :
    TagHit t (v1 ++ v2) ↔ TagHit t v1 ∨ TagHit t v2 := by
  simp only [TagHit, List.mem_append]
  constructor
  · rintro (⟨rfl, h1 | h1⟩ | ⟨rfl, m, h1 | h1, hm⟩)
    · exact Or.inl (Or.inl ⟨rfl, h1⟩)
    · exact Or.inr (Or.inl ⟨rfl, h1⟩)
    · exact Or.inl (Or.inr ⟨rfl, m, h1, hm⟩)
    · exact Or.inr (Or.inr ⟨rfl, m, h1, hm⟩)
  · rintro ((⟨rfl, h1⟩ | ⟨rfl, m, h1, hm⟩) | (⟨rfl, h1⟩ | ⟨rfl, m, h1, hm⟩))
    · exact Or.inl ⟨rfl, Or.inl h1⟩
    · exact Or.inr ⟨rfl, m, Or.inl h1, hm⟩
    · exact Or.inl ⟨rfl, Or.inr h1⟩
    · exact Or.inr ⟨rfl, m, Or.inr h1, hm⟩

theorem tryCands_pair {σ τ : Type}
    (solve1 : SudokuBoard → σ → Bool × SudokuBoard × σ)
    (solve2 : SudokuBoard → τ → Bool × SudokuBoard × τ)
    (hpair : ∀ b s t, (solve1 b s).1 = (solve2 b t).1 ∧
      (solve1 b s).2.1 = (solve2 b t).2.1) (row col : Nat) :
    ∀ (l : List Nat) (b : SudokuBoard) (s : σ) (t : τ),
      (tryCands solve1 row col l b s).1 = (tryCands solve2 row col l b t).1 ∧
      (tryCands solve1 row col l b s).2.1 = (tryCands solve2 row col l b t).2.1
  | [], b, s, t => ⟨rfl, rfl⟩
  | num :: rest, b, s, t => by
    simp only [tryCands]
    rcases h1 : solve1 (setCell b row col num) s with ⟨ok1, b1, s1⟩
    rcases h2 : solve2 (setCell b row col num) t with ⟨ok2, b2, t1⟩
    have hp := hpair (setCell b row col num) s t
    rw [h1, h2] at hp
    simp only at hp
    rcases hp with ⟨hok, hb⟩
    subst hok
    subst hb
    cases ok1 with
    | true => exact ⟨rfl, rfl⟩
    | false => exact tryCands_pair solve1 solve2 hpair row col rest (setCell b1 row col 0) s1 t1

theorem solve_pair : ∀ (fuel : Nat) (b : SudokuBoard) (s : List Strategy) (log : List Nat),
    (solveWithStrategiesAux fuel b s).1 = (solveVisitsAux fuel b log).1 ∧
    (solveWithStrategiesAux fuel b s).2.1 = (solveVisitsAux fuel b log).2.1
  | 0, b, s, log => ⟨rfl, rfl⟩
  | fuel+1, b, s, log => by
    simp only [solveWithStrategiesAux, solveVisitsAux]
    cases hfind : findEmptyCell b with
    | none => exact ⟨rfl, rfl⟩
    | some rc =>
      rcases rc with ⟨row, col⟩
      exact tryCands_pair (solveWithStrategiesAux fuel) (solveVisitsAux fuel)
        (fun b' s' t' => solve_pair fuel b' s' t') row col _ b _ _

theorem tryCands_append
    (solve : SudokuBoard → List Nat → Bool × SudokuBoard × List Nat)
    (hsolve : ∀ b log, solve b log
      = ((solve b []).1, (solve b []).2.1, log ++ (solve b []).2.2)) (row col : Nat) :
    ∀ (l : List Nat) (b : SudokuBoard) (log : List Nat),
      tryCands solve row col l b log
        = ((tryCands solve row col l b []).1, (tryCands solve row col l b []).2.1,
           log ++ (tryCands solve row col l b []).2.2)
  | [], b, log => by simp [tryCands]
  | num :: rest, b, log => by
    simp only [tryCands]
    rcases h0 : solve (setCell b row col num) [] with ⟨ok, b1, δ⟩
    have hlog := hsolve (setCell b row col num) log
    rw [h0] at hlog
    simp only at hlog
    rw [hlog]
    cases ok with
    | true => simp
    | false =>
      simp only
      have h1 := tryCands_append solve hsolve row col rest (setCell b1 row col 0) (log ++ δ)
      have h2 := tryCands_append solve hsolve row col rest (setCell b1 row col 0) δ
      rw [h1, h2]
      simp [List.append_assoc]

theorem solveVisits_append : ∀ (fuel : Nat) (b : SudokuBoard) (log : List Nat),
    solveVisitsAux fuel b log
      = ((solveVisitsAux fuel b []).1, (solveVisitsAux fuel b []).2.1,
         log ++ (solveVisitsAux fuel b []).2.2)
  | 0, b, log => by simp [solveVisitsAux]
  | fuel+1, b, log => by
    simp only [solveVisitsAux]
    cases hfind : findEmptyCell b with
    | none => simp
    | some rc =>
      rcases rc with ⟨row, col⟩
      simp only
      rw [tryCands_append (solveVisitsAux fuel) (solveVisits_append fuel) row col _ b
        (log ++ [_]),
        tryCands_append (solveVisitsAux fuel) (solveVisits_append fuel) row col _ b
        ([] ++ [_])]
      simp [List.append_assoc]

theorem tagHit_single (t : Strategy) (m : Nat) :
    TagHit t [m] ↔ (t = Strategy.nakedSingle ∧ m = 1) ∨
      (t = Strategy.backtracking ∧ 1 < m) := by
  simp only [TagHit, List.mem_singleton]
  constructor
  · rintro (⟨rfl, h⟩ | ⟨rfl, n, rfl, hn⟩)
    · exact Or.inl ⟨rfl, h.symm⟩
    · exact Or.inr ⟨rfl, hn⟩
  · rintro (⟨rfl, h⟩ | ⟨rfl, h⟩)
    · exact Or.inl ⟨rfl, h.symm⟩
    · exact Or.inr ⟨rfl, m, rfl, h⟩

theorem tryCands_tags
    (solve1 : SudokuBoard → List Strategy → Bool × SudokuBoard × List Strategy)
    (solve2 : SudokuBoard → List Nat → Bool × SudokuBoard × List Nat)
    (hpair : ∀ b s log, (solve1 b s).1 = (solve2 b log).1 ∧
      (solve1 b s).2.1 = (solve2 b log).2.1)
    (happ : ∀ b log, solve2 b log
      = ((solve2 b []).1, (solve2 b []).2.1, log ++ (solve2 b []).2.2))
    (hmem : ∀ b s t, t ∈ (solve1 b s).2.2 ↔ t ∈ s ∨ TagHit t ((solve2 b []).2.2))
    (row col : Nat) :
    ∀ (l : List Nat) (b : SudokuBoard) (s : List Strategy) (t : Strategy),
      t ∈ (tryCands solve1 row col l b s).2.2 ↔
        t ∈ s ∨ TagHit t ((tryCands solve2 row col l b []).2.2)
  | [], b, s, t => by
    simp only [tryCands]
    simp [tagHit_nil]
  | num :: rest, b, s, t => by
    simp only [tryCands]
    rcases h1 : solve1 (setCell b row col num) s with ⟨ok1, b1, s1⟩
    rcases h2 : solve2 (setCell b row col num) [] with ⟨ok2, b2, δ⟩
    have hp := hpair (setCell b row col num) s []
    rw [h1, h2] at hp
    simp only at hp
    obtain ⟨hok, hb⟩ := hp
    subst hok
    subst hb
    have hm := hmem (setCell b row col num) s t
    rw [h1, h2] at hm
    simp only at hm
    cases ok1 with
    | true =>
      simp only
      exact hm
    | false =>
      simp only
      rw [tryCands_append solve2 happ row col rest (setCell b1 row col 0) δ]
      simp only
      rw [tagHit_append,
        tryCands_tags solve1 solve2 hpair happ hmem row col rest (setCell b1 row col 0) s1 t,
        hm]
      tauto

theorem solve_tags : ∀ (fuel : Nat) (b : SudokuBoard) (s : List Strategy) (t : Strategy),
    t ∈ (solveWithStrategiesAux fuel b s).2.2 ↔
      t ∈ s ∨ TagHit t ((solveVisitsAux fuel b []).2.2)
  | 0, b, s, t => by
    simp only [solveWithStrategiesAux, solveVisitsAux]
    simp [tagHit_nil]
  | fuel+1, b, s, t => by
    simp only [solveWithStrategiesAux, solveVisitsAux]
    cases hfind : findEmptyCell b with
    | none => simp [tagHit_nil]
    | some rc =>
      rcases rc with ⟨row, col⟩
      simp only
      rw [show ([] : List Nat) ++
          [((oneToN b.length).filter (fun num => isValidPlacement b row col num)).length]
          = [((oneToN b.length).filter (fun num => isValidPlacement b row col num)).length]
          from rfl]
      rw [tryCands_append (solveVisitsAux fuel) (solveVisits_append fuel) row col _ b _]
      simp only
      rw [tagHit_append,
        tryCands_tags (solveWithStrategiesAux fuel) (solveVisitsAux fuel)
          (fun b' s' log' => solve_pair fuel b' s' log')
          (solveVisits_append fuel)
          (fun b' s' t' => solve_tags fuel b' s' t') row col _ b _ t,
        tagHit_single]
      by_cases hl1 :
          ((oneToN b.length).filter (fun num => isValidPlacement b row col num)).length = 1
      · rw [if_pos (by simp [hl1])]
        rw [mem_insertStrategy]
        constructor
        · rintro (((h | rfl) | hτ))
          · exact Or.inl h
          · exact Or.inr (Or.inl (Or.inl ⟨rfl, hl1⟩))
          · exact Or.inr (Or.inr hτ)
        · rintro (h | ((⟨rfl, _⟩ | ⟨rfl, hgt⟩) | hτ))
          · exact Or.inl (Or.inl h)
          · exact Or.inl (Or.inr rfl)
          · omega
          · exact Or.inr hτ
      · rw [if_neg (by simp [hl1])]
        by_cases hl2 :
            1 < ((oneToN b.length).filter (fun num => isValidPlacement b row col num)).length
        · rw [if_pos (by simpa using hl2)]
          rw [mem_insertStrategy]
          constructor
          · rintro ((h | rfl) | hτ)
            · exact Or.inl h
            · exact Or.inr (Or.inl (Or.inr ⟨rfl, hl2⟩))
            · exact Or.inr (Or.inr hτ)
          · rintro (h | ((⟨rfl, heq⟩ | ⟨rfl, _⟩) | hτ))
            · exact Or.inl (Or.inl h)
            · exact absurd heq hl1
            · exact Or.inl (Or.inr rfl)
            · exact Or.inr hτ
        · rw [if_neg (by simpa using hl2)]
          constructor
          · rintro (h | hτ)
            · exact Or.inl h
            · exact Or.inr (Or.inr hτ)
          · rintro (h | ((⟨rfl, heq⟩ | ⟨rfl, hgt⟩) | hτ))
            · exact Or.inl h
            · exact absurd heq hl1
            · exact absurd hgt hl2
            · exact Or.inr hτ

/-- Claim C7: in `solveWithStrategies` the final strategy set is exactly
the initial one plus `Naked Single` when some visited empty cell had
exactly one candidate and `Backtracking` when some visited empty cell had
more than one candidate (`solveVisitsAux` is the same recursion
instrumented to log the candidate count of every visited cell, and its
Bool/board components coincide with the original's).  In particular
`Advanced` is never added: it is in the final set only if it was in the
accumulator before the call. -/
theorem C7_strategy_tags (fuel : Nat) (b : SudokuBoard) (s : List Strategy) :
    ((solveWithStrategiesAux fuel b s).1 = (solveVisitsAux fuel b []).1) ∧
    ((solveWithStrategiesAux fuel b s).2.1 = (solveVisitsAux fuel b []).2.1) ∧
    (∀ t, t ∈ (solveWithStrategiesAux fuel b s).2.2 ↔
        t ∈ s ∨ TagHit t ((solveVisitsAux fuel b []).2.2)) ∧
    (Strategy.advanced ∈ (solveWithStrategiesAux fuel b s).2.2 ↔
      Strategy.advanced ∈ s) := by
  refine ⟨(solve_pair fuel b s []).1, (solve_pair fuel b s []).2,
    fun t => solve_tags fuel b s t, ?_⟩
  rw [solve_tags fuel b s Strategy.advanced]
  simp [TagHit]

/-! ### The retry loop of removeNumbersStrategically -/

theorem tryCands_true {σ : Type} (solve : SudokuBoard → σ → Bool × SudokuBoard × σ)
    (hsolve : ∀ b s b2 s2, solve b s = (true, b2, s2) → findEmptyCell b2 = none)
    (row col : Nat) :
    ∀ (l : List Nat) (b : SudokuBoard) (s : σ) (b2 : SudokuBoard) (s2 : σ),
      tryCands solve row col l b s = (true, b2, s2) → findEmptyCell b2 = none
  | [], b, s, b2, s2, h => by simp [tryCands] at h
  | num :: rest, b, s, b2, s2, h => by
    simp only [tryCands] at h
    split at h
    · next b3 s3 heq =>
      simp only [Prod.mk.injEq] at h
      rw [← h.2.1]
      exact hsolve _ _ _ _ heq
    · exact tryCands_true solve hsolve row col rest _ _ b2 s2 h

theorem solveWithStrategiesAux_true :
    ∀ (fuel : Nat) (b : SudokuBoard) (s : List Strategy) (b2 : SudokuBoard)
      (s2 : List Strategy), solveWithStrategiesAux fuel b s = (true, b2, s2) →
      findEmptyCell b2 = none
  | 0, b, s, b2, s2, h => by simp [solveWithStrategiesAux] at h
  | fuel+1, b, s, b2, s2, h => by
    simp only [solveWithStrategiesAux] at h
    split at h
    · next hfind =>
      simp only [Prod.mk.injEq] at h
      rw [← h.2.1]
      exact hfind
    · next rc row col heq =>
      exact tryCands_true _
        (fun b' s' b2' s2' h' => solveWithStrategiesAux_true fuel b' s' b2' s2' h')
        row col _ b _ b2 s2 h

theorem solve_bool_indep (fuel : Nat) (b : SudokuBoard) (s s' : List Strategy) :
    (solveWithStrategiesAux fuel b s).1 = (solveWithStrategiesAux fuel b s').1 := by
  rw [(solve_pair fuel b s []).1, (solve_pair fuel b s' []).1]

set_option maxHeartbeats 1000000 in
theorem cellTrialLoop_collapse (T : List Strategy) (pc : SudokuBoard) :
    cellTrialLoop T 3 pc [] =
      ((solveWithStrategies pc []).1 &&
        (solveWithStrategies pc []).2.2.all (fun t => T.contains t)) := by
  rcases hsolve : solveWithStrategies pc [] with ⟨ok, pc2, su2⟩
  simp only [cellTrialLoop, hsolve]
  by_cases hcond : (ok && su2.all (fun t => T.contains t)) = true
  · rw [if_pos hcond, hcond]
  · rw [if_neg hcond]
    cases ok with
    | true =>
      have hempty : findEmptyCell pc2 = none :=
        solveWithStrategiesAux_true _ pc [] pc2 su2 hsolve
      have hstep : ∀ s0 : List Strategy,
          solveWithStrategies pc2 s0 = (true, pc2, s0) := by
        intro s0
        unfold solveWithStrategies solveWithStrategiesAux
        rw [hempty]
      simp only [hstep]
      rw [if_neg hcond, if_neg hcond]
      simp only [Bool.true_and, Bool.not_eq_true] at hcond
      rw [Bool.true_and, hcond]
    | false =>
      have hpc2 : pc2 = pc := solveWithStrategiesAux_false _ pc [] pc2 su2 hsolve
      subst hpc2
      have hfail : ∀ s0 : List Strategy, (solveWithStrategies pc2 s0).1 = false ∧
          (solveWithStrategies pc2 s0).2.1 = pc2 := by
        intro s0
        rcases hs : solveWithStrategies pc2 s0 with ⟨okx, px, sx⟩
        have hokx : okx = false := by
          have h1 : (solveWithStrategies pc2 s0).1 = (solveWithStrategies pc2 []).1 :=
            solve_bool_indep _ pc2 s0 []
          rw [hs, hsolve] at h1
          exact h1
        subst hokx
        have hpx : px = pc2 := solveWithStrategiesAux_false _ pc2 s0 px sx hs
        subst hpx
        exact ⟨rfl, rfl⟩
      rcases hs1 : solveWithStrategies pc2 su2 with ⟨ok1, pcA, suA⟩
      have h1 := hfail su2
      rw [hs1] at h1
      simp only at h1
      obtain ⟨hok1, hpcA⟩ := h1
      subst hok1
      subst hpcA
      simp only [hs1]
      rw [if_neg (by simp)]
      rcases hs2 : solveWithStrategies pcA suA with ⟨ok2, pcB, suB⟩
      have h2 := hfail suA
      rw [hs2] at h2
      simp only at h2
      obtain ⟨hok2, hpcB⟩ := h2
      subst hok2
      simp only [hs2]
      rw [if_neg (by simp)]
      simp

theorem stratRemoveLoop_cons (T : List Strategy) (tO : Option Nat) (maxA : Nat)
    (r c : Nat) (rest : List (Nat × Nat)) (p : SudokuBoard) (removed att : Nat) :
    stratRemoveLoop T tO maxA ((r, c) :: rest) p removed att =
      if belowTarget tO removed && decide (att < maxA) then
        (if (solveWithStrategies (setCell p r c 0) []).1 &&
            (solveWithStrategies (setCell p r c 0) []).2.2.all (fun t => T.contains t)
         then stratRemoveLoop T tO maxA rest (setCell p r c 0) (removed + 1) (att + 1)
         else stratRemoveLoop T tO maxA rest p removed (att + 1))
      else p := by
  simp only [stratRemoveLoop]
  by_cases hg : (belowTarget tO removed && decide (att < maxA)) = true
  · rw [if_pos hg, if_pos hg, boardCopy_eq, cellTrialLoop_collapse]
    by_cases hcheck : ((solveWithStrategies (setCell p r c 0) []).1 &&
        (solveWithStrategies (setCell p r c 0) []).2.2.all (fun t => T.contains t)) = true
    · rw [if_pos hcheck, if_pos hcheck]
    · rw [if_neg hcheck, if_neg hcheck, setCell_zero_restore]
  · rw [if_neg hg, if_neg hg]

theorem stratRemoveLoop_take (T : List Strategy) (tO : Option Nat) (maxA : Nat) :
    ∀ (cells : List (Nat × Nat)) (p : SudokuBoard) (removed att : Nat),
      stratRemoveLoop T tO maxA cells p removed att
        = stratRemoveLoop T tO maxA (cells.take (maxA - att)) p removed att
  | [], p, removed, att => by rw [List.take_nil]
  | (r, c) :: rest, p, removed, att => by
    by_cases hatt : att < maxA
    · have hs : maxA - att = (maxA - (att + 1)) + 1 := by omega
      rw [hs, List.take_succ_cons]
      simp only [stratRemoveLoop]
      by_cases hg : (belowTarget tO removed && decide (att < maxA)) = true
      · rw [if_pos hg, if_pos hg]
        by_cases hcan : cellTrialLoop T 3 (boardCopy (setCell p r c 0)) [] = true
        · rw [if_pos hcan, if_pos hcan,
            stratRemoveLoop_take T tO maxA rest (setCell p r c 0) (removed + 1) (att + 1)]
        · rw [if_neg hcan, if_neg hcan,
            stratRemoveLoop_take T tO maxA rest
              (setCell (setCell p r c 0) r c ((p.getD r []).getD c 0)) removed (att + 1)]
      · rw [if_neg hg, if_neg hg]
    · have hz : maxA - att = 0 := by omega
      rw [hz, List.take_zero]
      simp only [stratRemoveLoop]
      rw [if_neg (by simp [hatt])]

/-- Claim C8: the structure of `removeNumbersStrategically`.
(1) The inner retry loop (`maxAttemptsPerCell = 3`) is equivalent to the
first attempt alone — a tentative removal is kept exactly when
`solveWithStrategies` succeeds on a copy of the tentatively-removed
puzzle AND every accumulated strategy tag is in `targetStrategies`
(retries cannot change the verdict: a successful-but-too-hard solve
leaves the copy solved, a failed solve restores it).
(2) Each popped cell is zeroed and either kept (counted) when that check
passes or restored to its backup value otherwise, subject to the global
guards.
(3) At most `maxAttempts` cells are ever tried: the loop's result only
depends on the first `maxAttempts - attempts` cells of the pop order.
(4) `removeNumbersStrategically` (default `maxAttempts = 60`) is this
loop started on a copy of the full board with counters at 0. -/
theorem C8_strategic_removal :
    (∀ (T : List Strategy) (pc : SudokuBoard),
      cellTrialLoop T 3 pc [] =
        ((solveWithStrategies pc []).1 &&
          (solveWithStrategies pc []).2.2.all (fun t => T.contains t))) ∧
    (∀ (T : List Strategy) (tO : Option Nat) (maxA r c : Nat)
      (rest : List (Nat × Nat)) (p : SudokuBoard) (removed att : Nat),
      stratRemoveLoop T tO maxA ((r, c) :: rest) p removed att =
        if belowTarget tO removed && decide (att < maxA) then
          (if (solveWithStrategies (setCell p r c 0) []).1 &&
              (solveWithStrategies (setCell p r c 0) []).2.2.all (fun t => T.contains t)
           then stratRemoveLoop T tO maxA rest (setCell p r c 0) (removed + 1) (att + 1)
           else stratRemoveLoop T tO maxA rest p removed (att + 1))
        else p) ∧
    (∀ (T : List Strategy) (tO : Option Nat) (maxA : Nat) (cells : List (Nat × Nat))
      (p : SudokuBoard) (removed att : Nat),
      stratRemoveLoop T tO maxA cells p removed att
        = stratRemoveLoop T tO maxA (cells.take (maxA - att)) p removed att) ∧
    (∀ (R : Nat → Nat → List Nat) (fb : SudokuBoard) (T : List Strategy)
      (d : String) (maxA : Nat),
      removeNumbersStrategically R fb T d maxA
        = stratRemoveLoop T (getTargetCellsToRemove fb.length d) maxA
            ((shuffleWith (R 0 (fb.length * fb.length)) (allCells fb.length)).reverse)
            fb 0 0) := by
  refine ⟨fun T pc => cellTrialLoop_collapse T pc,
    fun T tO maxA r c rest p removed att =>
      stratRemoveLoop_cons T tO maxA r c rest p removed att,
    fun T tO maxA cells p removed att =>
      stratRemoveLoop_take T tO maxA cells p removed att,
    fun R fb T d maxA => ?_⟩
  unfold removeNumbersStrategically
  rw [boardCopy_eq]

/-! ### completeBoard: the greedy pass -/

theorem squareB_getD {b : SudokuBoard} (hsq : squareB b = true) {i : Nat}
    (hi : i < b.length) : (b.getD i []).length = b.length := by
  have hrow : b.get? i = some (b.get ⟨i, hi⟩) := List.get?_eq_get hi
  have : b.getD i [] = b.get ⟨i, hi⟩ := by rw [getD_nil_eq, hrow]; rfl
  rw [this]
  exact (squareB_iff b).mp hsq _ (List.get_mem b i hi)

theorem squareB_of_getD {b : SudokuBoard}
    (h : ∀ i < b.length, (b.getD i []).length = b.length) : squareB b = true := by
  rw [squareB_iff]
  intro row hrow
  obtain ⟨⟨i, hilt⟩, hget⟩ := List.mem_iff_get.mp hrow
  have hrow? : b.get? i = some row := by rw [List.get?_eq_get hilt, hget]
  have hD : b.getD i [] = row := by rw [getD_nil_eq, hrow?]; rfl
  rw [← hD]
  exact h i hilt

theorem squareB_setCell {b : SudokuBoard} (hsq : squareB b = true) (r c v : Nat) :
    squareB (setCell b r c v) = true := by
  apply squareB_of_getD
  intro i hi
  rw [setCell_length] at hi
  rw [length_getD_setCell, setCell_length]
  exact squareB_getD hsq hi

theorem sameShape_trans {a b c : SudokuBoard} (h1 : SameShape a b) (h2 : SameShape b c) :
    SameShape a c :=
  ⟨h1.1.trans h2.1, fun i => (h1.2 i).trans (h2.2 i)⟩

theorem countP_flatMap {α β : Type} (p : β → Bool) (f : α → List β) :
    ∀ l : List α, (l.flatMap f).countP p = (l.map (fun a => (f a).countP p)).sum
  | [] => rfl
  | x :: t => by
    rw [List.flatMap_cons, List.countP_append, List.map_cons, List.sum_cons,
      countP_flatMap p f t]

theorem allCells_nodup (n : Nat) : (allCells n).Nodup := by
  unfold allCells
  rw [List.nodup_flatMap]
  constructor
  · intro i _
    refine (List.nodup_range n).map ?_
    intro a b hab
    simpa using congrArg Prod.snd hab
  · apply List.Pairwise.imp ?_ ((List.nodup_range n) : (List.range n).Pairwise (· ≠ ·))
    intro a b hab
    intro x hxa hxb
    rcases List.mem_map.mp hxa with ⟨j1, _, rfl⟩
    rcases List.mem_map.mp hxb with ⟨j2, _, hx⟩
    exact hab (congrArg Prod.fst hx).symm

theorem findAllEmpty_nodup (b : SudokuBoard) : (findAllEmpty b).Nodup :=
  (allCells_nodup b.length).filter _

theorem findAllEmpty_mem {b : SudokuBoard} {rc : Nat × Nat}
    (h : rc ∈ findAllEmpty b) : cellAt b rc.1 rc.2 = some 0 ∧ rc.1 < b.length ∧
      rc.2 < b.length := by
  unfold findAllEmpty at h
  have h1 := List.mem_filter.mp h
  refine ⟨by simpa using h1.2, (mem_allCells.mp h1.1).1, (mem_allCells.mp h1.1).2⟩

theorem sum_map_via_range (g : List Nat → Nat) (l : SudokuBoard) :
    (l.map g).sum = ((List.range l.length).map (fun i => ((l.get? i).map g).getD 0)).sum := by
  have h1 : (List.range l.length).map (fun i => ((l.get? i).map g).getD 0)
      = ((List.range l.length).map (fun i => l.get? i)).map (fun o => (o.map g).getD 0) := by
    rw [List.map_map]
    rfl
  rw [h1, map_get?_range, List.map_map]
  rfl

theorem countZeros_eq_findAllEmpty_length {b : SudokuBoard} (hsq : squareB b = true) :
    countZeros b = (findAllEmpty b).length := by
  unfold countZeros findAllEmpty
  rw [← List.countP_eq_length_filter]
  unfold allCells
  rw [countP_flatMap, sum_map_via_range]
  congr 1
  apply List.map_congr_left
  intro i hi
  rw [List.mem_range] at hi
  have hrow : b.get? i = some (b.get ⟨i, hi⟩) := List.get?_eq_get hi
  rw [hrow]
  simp only [Option.map_some', Option.getD_some]
  set row := b.get ⟨i, hi⟩ with hrowdef
  have hlen : row.length = b.length := (squareB_iff b).mp hsq _ (List.get_mem b i hi)
  have hcells : ∀ j, cellAt b i j = row.get? j := by
    intro j
    unfold cellAt
    rw [hrow, Option.some_bind]
  have hcount : (row.filter (fun x => x == 0)).length = row.count 0 := by
    rw [← List.countP_eq_length_filter]
    rfl
  rw [hcount, ← count_map_some row 0, ← map_get?_range row, hlen, count_cells_map]
  rw [List.countP_map]
  apply List.countP_congr
  intro j _
  simp only [Function.comp_apply, hcells j]

theorem greedyFill_spec (R : Nat → Nat → List Nat) (size : Nat) :
    ∀ (cells : List (Nat × Nat)) (k : Nat) (b : SudokuBoard) (out : SudokuBoard)
      (k2 : Nat),
      b.length = size → squareB b = true → isBoardValid b = true →
      (∀ rc ∈ cells, cellAt b rc.1 rc.2 = some 0) →
      countZeros b = cells.length → cells.Nodup →
      greedyFill R size cells k b = (some out, k2) →
      countZeros out = 0 ∧ isBoardValid out = true ∧ SameShape out b
  | [], k, b, out, k2, _, _, hval, _, hz, _, h => by
    simp only [greedyFill, Prod.mk.injEq, Option.some.injEq] at h
    rw [← h.1]
    exact ⟨by simpa using hz, hval, sameShape_refl b⟩
  | (r, c) :: rest, k, b, out, k2, hsize, hsq, hval, hcells, hz, hnd, h => by
    simp only [greedyFill] at h
    split at h
    · next num hfind =>
      have hvalid : isValidPlacement b r c num = true := List.find?_some hfind
      have hmem : num ∈ oneToN size :=
        mem_of_mem_shuffleWith (List.mem_of_find?_eq_some hfind)
      have hnum0 : num ≠ 0 := by
        have := (mem_oneToN.mp hmem).1
        omega
      have hcell : cellAt b r c = some 0 := hcells (r, c) (List.mem_cons_self _ _)
      have hlen' : (setCell b r c num).length = size := by
        rw [setCell_length]
        exact hsize
      have hsq' := squareB_setCell hsq r c num
      have hval' := valid_setCell hval hcell hvalid
      have hcells' : ∀ rc ∈ rest, cellAt (setCell b r c num) rc.1 rc.2 = some 0 := by
        intro rc hrc
        have hne : rc.1 ≠ r ∨ rc.2 ≠ c := by
          by_contra hcon
          push_neg at hcon
          have hrceq : rc = (r, c) := Prod.ext hcon.1 hcon.2
          rw [hrceq] at hrc
          exact (List.nodup_cons.mp hnd).1 hrc
        rw [cellAt_setCell_ne num hne]
        exact hcells rc (List.mem_cons_of_mem _ hrc)
      have hz' : countZeros (setCell b r c num) = rest.length := by
        have hdec := countZeros_setCell_fill num hcell hnum0
        rw [hz, List.length_cons] at hdec
        omega
      have hnd' := (List.nodup_cons.mp hnd).2
      have ih := greedyFill_spec R size rest (k + 1) (setCell b r c num) out k2
        hlen' hsq' hval' hcells' hz' hnd' h
      exact ⟨ih.1, ih.2.1,
        sameShape_trans ih.2.2 (sameShape_setCell (sameShape_refl b) r c num)⟩
    · exact absurd h (by simp)

theorem completeBoardAux_spec (R : Nat → Nat → List Nat) :
    ∀ (fuel k : Nat) (p out : SudokuBoard),
      squareB p = true → isBoardValid p = true →
      completeBoardAux R fuel k p = some out →
      countZeros out = 0 ∧ isBoardValid out = true ∧ SameShape out p
  | 0, _, _, _, _, _, h => by cases h
  | fuel+1, k, p, out, hsq, hval, h => by
    simp only [completeBoardAux, boardCopy_eq] at h
    split at h
    · next b kx heq =>
      simp only [Option.some.injEq] at h
      subst h
      exact greedyFill_spec R p.length (findAllEmpty p) k p b kx rfl hsq hval
        (fun rc hrc => (findAllEmpty_mem hrc).1)
        (countZeros_eq_findAllEmpty_length hsq)
        (findAllEmpty_nodup p) heq
    · next k2 heq =>
      exact completeBoardAux_spec R fuel k2 p out hsq hval h

/-- Claim C6 amended: whenever `completeBoard` terminates (some number of
greedy restart passes produces a board) on a square `isBoardValid` input
— in particular on any puzzle produced by `removeNumbers` from a
`generateBoard` result — the board it returns is fully filled
(`countZeros = 0`), satisfies `isBoardValid`, and has the input's
dimensions.  Termination itself cannot be guaranteed for every sequence
of random choices: see the divergence counterexample. -/
theorem C6_completeBoard_sound (R : Nat → Nat → List Nat) (fuel k : Nat)
    (p out : SudokuBoard) (hsq : squareB p = true) (hval : isBoardValid p = true)
    (h : completeBoardAux R fuel k p = some out) :
    countZeros out = 0 ∧ isBoardValid out = true ∧ SameShape out p :=
  completeBoardAux_spec R fuel k p out hsq hval h

/-- Shuffle oracle driving `generateBoard 4` to the cyclic Latin square
`[[1,2,3,4],[2,3,4,1],[3,4,1,2],[4,1,2,3]]`: the k-th shuffle puts the
cyclic value of the k-th cell first (the fill never backtracks). -/
def cexR1 : Nat → Nat → List Nat := fun k n =>
  ((k / 4 + k % 4) % 4) :: ((List.range n).filter (fun i => i ≠ (k / 4 + k % 4) % 4))

/-- Shuffle oracle driving `removeNumbers` to pop (and blank) exactly the
six cells (0,0), (0,1), (1,0), (1,1), (3,3), (3,2), in that order. -/
def cexR2 : Nat → Nat → List Nat := fun _ _ =>
  [2, 3, 6, 7, 8, 9, 10, 11, 12, 13, 15, 14, 5, 4, 1, 0]

/-- Adversarial shuffle oracle for `completeBoard`: every candidate
shuffle is `[2,1,3,4]`, so each greedy pass places 2 at (0,0) and then
dead-ends at (0,1) (1 is blocked by column 1, everything else by row 0). -/
def cexR3 : Nat → Nat → List Nat := fun _ _ => [1, 0, 2, 3]

/-- Claim C6 counterexample: `completeBoard` does NOT terminate for every
sequence of random choices on a `removeNumbers ∘ generateBoard` output.
On the reachable puzzle `[[0,0,3,4],[0,0,4,1],[3,4,1,2],[4,1,0,0]]`
(produced by `generateBoard 4` then `removeNumbers "easy"` under the
oracles `cexR1`, `cexR2`), the choice sequence `cexR3` makes every greedy
pass fail at cell (0,1), and the restart repeats the same choices, so no
number of restart passes ever returns a board. -/
theorem C6_counterexample :
    CompleteBoardDiverges cexR3 (removeNumbers cexR2 (generateBoard cexR1 4) "easy") := by
  have hP : removeNumbers cexR2 (generateBoard cexR1 4) "easy"
      = [[0, 0, 3, 4], [0, 0, 4, 1], [3, 4, 1, 2], [4, 1, 0, 0]] := by decide
  unfold CompleteBoardDiverges
  rw [hP]
  intro fuel
  induction fuel with
  | zero => intro k; rfl
  | succ m ih =>
    intro k
    have hstep : completeBoardAux cexR3 (m + 1) k
        [[0, 0, 3, 4], [0, 0, 4, 1], [3, 4, 1, 2], [4, 1, 0, 0]]
        = completeBoardAux cexR3 m (k + 2)
        [[0, 0, 3, 4], [0, 0, 4, 1], [3, 4, 1, 2], [4, 1, 0, 0]] := rfl
    rw [hstep]
    exact ih (k + 2)

/-- Claim C6 amended, instantiated: on the same reachable puzzle,
identity shuffles make the first greedy pass succeed, and the returned
board is full, valid and of the input's dimensions. -/
theorem C6_witness :
    countZeros [[1, 2, 3, 4], [2, 3, 4, 1], [3, 4, 1, 2], [4, 1, 2, 3]] = 0 ∧
    isBoardValid [[1, 2, 3, 4], [2, 3, 4, 1], [3, 4, 1, 2], [4, 1, 2, 3]] = true ∧
    SameShape [[1, 2, 3, 4], [2, 3, 4, 1], [3, 4, 1, 2], [4, 1, 2, 3]]
      [[0, 0, 3, 4], [0, 0, 4, 1], [3, 4, 1, 2], [4, 1, 0, 0]] :=
  C6_completeBoard_sound (fun _ n => List.range n) 1 0
    [[0, 0, 3, 4], [0, 0, 4, 1], [3, 4, 1, 2], [4, 1, 0, 0]]
    [[1, 2, 3, 4], [2, 3, 4, 1], [3, 4, 1, 2], [4, 1, 2, 3]]
    (by decide) (by decide) (by decide)

/-! ### generateBoard: completeness of the randomized backtracking fill -/

theorem oneToN_length (n : Nat) : (oneToN n).length = n := by
  unfold oneToN
  rw [List.length_map, List.length_range]

theorem cellAt_total {b : SudokuBoard} {r c : Nat} (hr : r < b.length)
    (hc : c < (b.getD r []).length) : ∃ v, cellAt b r c = some v := by
  have hrow : b.get? r = some (b.get ⟨r, hr⟩) := List.get?_eq_get hr
  have hD : b.getD r [] = b.get ⟨r, hr⟩ := by rw [getD_nil_eq, hrow]; rfl
  rw [hD] at hc
  exact ⟨(b.get ⟨r, hr⟩).get ⟨c, hc⟩,
    cellAt_of_get hrow (List.get?_eq_get hc)⟩

theorem countZeros_pos {b : SudokuBoard} {r c : Nat} (h : cellAt b r c = some 0) :
    0 < countZeros b := by
  have := countZeros_setCell_fill 1 h (by omega)
  omega

theorem two_le_length_of_two_mem {α : Type} :
    ∀ {l : List α} {x y : α}, x ∈ l → y ∈ l → x ≠ y → 2 ≤ l.length
  | [], x, y, hx, _, _ => absurd hx (List.not_mem_nil x)
  | [a], x, y, hx, hy, hxy => by
    simp only [List.mem_singleton] at hx hy
    exact absurd (hx.trans hy.symm) hxy
  | a :: b :: t, _, _, _, _, _ => by
    simp only [List.length_cons]
    omega

theorem count_beq_irrel (l : List (Option Nat)) (x : Option Nat) :
    l.count x = @List.count _ instBEqOfDecidableEq x l := by
  induction l with
  | nil => rfl
  | cons a t ih =>
    rw [List.count_cons, @List.count_cons _ instBEqOfDecidableEq, ih]
    congr 1
    by_cases h : a = x
    · subst h
      have h2 : (@BEq.beq _ instBEqOfDecidableEq a a) = true := by
        simp
      rw [beq_self_eq_true, h2]
    · have h2 : (@BEq.beq _ instBEqOfDecidableEq a x) = false := by
        simp only [beq_eq_false_iff_ne]
        exact h
      rw [beq_eq_false_iff_ne.mpr h, h2]

theorem noDupCells_of_nodup {l : List (Option Nat)} (h : l.Nodup) : NoDupCells l :=
  fun x _ => by
    rw [count_beq_irrel]
    exact List.nodup_iff_count_le_one.mp h x

/-- Every cell value is at most `n`. -/
def CellsLe (n : Nat) (b : SudokuBoard) : Prop :=
  ∀ r c v, cellAt b r c = some v → v ≤ n

theorem cellsLe_setCell {n : Nat} {b : SudokuBoard} (h : CellsLe n b) {w : Nat}
    (hw : w ≤ n) (r c : Nat) : CellsLe n (setCell b r c w) := by
  intro r' c' v hv
  by_cases hrc : r' = r ∧ c' = c
  · rcases hrc with ⟨rfl, rfl⟩
    cases hcell : cellAt b r' c' with
    | none => rw [setCell_of_cellAt_none w hcell] at hv; exact h _ _ _ hv
    | some u =>
      rw [cellAt_setCell_self w (cellAt_bounds hcell).1 (cellAt_bounds hcell).2] at hv
      cases hv
      exact hw
  · have hne : r' ≠ r ∨ c' ≠ c := by tauto
    rw [cellAt_setCell_ne w hne] at hv
    exact h _ _ _ hv

/-- `b` can be completed to the full board `C`: same dimensions and every
non-zero cell of `b` already agrees with `C`. -/
def ExtendsTo (b C : SudokuBoard) : Prop :=
  SameShape b C ∧ ∀ r c v, cellAt b r c = some v → v ≠ 0 → cellAt C r c = some v

/-- The cyclic Latin square witnessing that an empty n×n board always has
a row/column-valid completion. -/
def cyclicBoard (n : Nat) : SudokuBoard :=
  (List.range n).map (fun i => (List.range n).map (fun j => (i + j) % n + 1))

theorem cyclicBoard_length (n : Nat) : (cyclicBoard n).length = n := by
  unfold cyclicBoard
  rw [List.length_map, List.length_range]

theorem cyclicBoard_get? {n i : Nat} (hi : i < n) :
    (cyclicBoard n).get? i = some ((List.range n).map (fun j => (i + j) % n + 1)) := by
  unfold cyclicBoard
  rw [List.get?_map, List.get?_range hi]
  rfl

theorem cyclicBoard_cellAt {n i j : Nat} (hi : i < n) (hj : j < n) :
    cellAt (cyclicBoard n) i j = some ((i + j) % n + 1) := by
  unfold cellAt
  rw [cyclicBoard_get? hi, Option.some_bind, List.get?_map, List.get?_range hj]
  rfl

theorem cyclicBoard_square (n : Nat) : squareB (cyclicBoard n) = true := by
  rw [squareB_iff]
  intro row hrow
  unfold cyclicBoard at hrow
  rcases List.mem_map.mp hrow with ⟨i, _, rfl⟩
  rw [List.length_map, List.length_range, cyclicBoard_length]

theorem cyclicBoard_full (n : Nat) : countZeros (cyclicBoard n) = 0 := by
  rw [countZeros_eq_zero_iff]
  intro row hrow v hv
  unfold cyclicBoard at hrow
  rcases List.mem_map.mp hrow with ⟨i, _, rfl⟩
  rcases List.mem_map.mp hv with ⟨j, _, rfl⟩
  omega

theorem cyclicBoard_cellsLe (n : Nat) : CellsLe n (cyclicBoard n) := by
  intro r c v hv
  have hr : r < n := by
    have := (cellAt_bounds hv).1
    rwa [cyclicBoard_length] at this
  have hc : c < (cyclicBoard n).length := by
    have hcb := (cellAt_bounds hv).2
    rcases cellAt_some hv with ⟨row, hrow, hval, hD⟩
    have := (squareB_iff _).mp (cyclicBoard_square n) row (List.get?_mem hrow)
    rw [hD, this] at hcb
    exact hcb
  rw [cyclicBoard_length] at hc
  rw [cyclicBoard_cellAt hr hc] at hv
  cases hv
  have hn : 0 < n := by omega
  have := Nat.mod_lt (r + c) hn
  omega

theorem cyclicBoard_valid (n : Nat) : isBoardValid (cyclicBoard n) = true := by
  rw [isBoardValid_iff]
  constructor
  · intro i hi
    rw [cyclicBoard_length] at hi
    apply noDupCells_of_nodup
    unfold rowCells
    rw [cyclicBoard_length,
      map_range_congr (g := fun j => some ((i + j) % n + 1))
        (fun j hj => cyclicBoard_cellAt hi hj)]
    refine (List.nodup_range n).map_on ?_
    intro j1 hj1 j2 hj2 heq
    rw [List.mem_range] at hj1 hj2
    simp only [Option.some.injEq, Nat.add_right_cancel_iff] at heq
    have hmod : j1 ≡ j2 [MOD n] := (Nat.ModEq.add_left_cancel' i heq)
    rwa [Nat.ModEq, Nat.mod_eq_of_lt hj1, Nat.mod_eq_of_lt hj2] at hmod
  · intro j hj
    rw [cyclicBoard_length] at hj
    apply noDupCells_of_nodup
    unfold colCells
    rw [cyclicBoard_length,
      map_range_congr (g := fun i => some ((i + j) % n + 1))
        (fun i hi => cyclicBoard_cellAt hi hj)]
    refine (List.nodup_range n).map_on ?_
    intro i1 hi1 i2 hi2 heq
    rw [List.mem_range] at hi1 hi2
    simp only [Option.some.injEq, Nat.add_right_cancel_iff] at heq
    have heq2 : j + i1 ≡ j + i2 [MOD n] := by
      unfold Nat.ModEq
      rw [Nat.add_comm j i1, Nat.add_comm j i2]
      exact heq
    have hmod : i1 ≡ i2 [MOD n] := heq2.add_left_cancel' j
    rwa [Nat.ModEq, Nat.mod_eq_of_lt hi1, Nat.mod_eq_of_lt hi2] at hmod

theorem replicate_get? {α : Type} (x : α) : ∀ (n i : Nat), i < n →
    (List.replicate n x).get? i = some x
  | n+1, 0, _ => rfl
  | n+1, i+1, h => replicate_get? x n i (by omega)

theorem createEmptyBoard_length (n : Nat) : (createEmptyBoard n).length = n := by
  unfold createEmptyBoard
  rw [List.length_replicate]

theorem createEmptyBoard_cellAt {n r c : Nat} (hr : r < n) (hc : c < n) :
    cellAt (createEmptyBoard n) r c = some 0 := by
  unfold createEmptyBoard cellAt
  rw [replicate_get? _ n r hr, Option.some_bind, replicate_get? _ n c hc]

theorem createEmptyBoard_cellAt_some {n r c v : Nat}
    (h : cellAt (createEmptyBoard n) r c = some v) : v = 0 := by
  rcases cellAt_some h with ⟨row, hrow, hval, _⟩
  unfold createEmptyBoard at hrow
  have hrowlt : r < n := by
    have := (List.get?_eq_some.mp hrow).choose
    rwa [List.length_replicate] at this
  rw [replicate_get? _ n r hrowlt] at hrow
  cases hrow
  have hclt : c < n := by
    have := (List.get?_eq_some.mp hval).choose
    rwa [List.length_replicate] at this
  rw [replicate_get? _ n c hclt] at hval
  cases hval
  rfl

theorem createEmptyBoard_square (n : Nat) : squareB (createEmptyBoard n) = true := by
  rw [squareB_iff]
  intro row hrow
  unfold createEmptyBoard at hrow ⊢
  rw [List.eq_of_mem_replicate hrow, List.length_replicate, List.length_replicate]

theorem createEmptyBoard_zeros (n : Nat) : countZeros (createEmptyBoard n) = n * n := by
  unfold countZeros createEmptyBoard
  rw [List.map_replicate]
  have hfilter : (List.replicate n 0).filter (fun x => x == 0) = List.replicate n 0 :=
    List.filter_eq_self.mpr (fun a ha => by
      rw [List.eq_of_mem_replicate ha]
      rfl)
  rw [hfilter, List.length_replicate, List.sum_replicate, smul_eq_mul]

theorem createEmptyBoard_valid (n : Nat) : isBoardValid (createEmptyBoard n) = true := by
  rw [isBoardValid_iff]
  constructor
  · intro i hi x hx
    rw [createEmptyBoard_length] at hi
    unfold rowCells
    rw [createEmptyBoard_length,
      map_range_congr (g := fun _ => some 0)
        (fun j hj => createEmptyBoard_cellAt hi hj)]
    rw [List.count_eq_zero.mpr (fun hmem => by
      rcases List.mem_map.mp hmem with ⟨_, _, heq⟩
      exact hx heq.symm)]
    omega
  · intro j hj x hx
    rw [createEmptyBoard_length] at hj
    unfold colCells
    rw [createEmptyBoard_length,
      map_range_congr (g := fun _ => some 0)
        (fun i hi => createEmptyBoard_cellAt hi hj)]
    rw [List.count_eq_zero.mpr (fun hmem => by
      rcases List.mem_map.mp hmem with ⟨_, _, heq⟩
      exact hx heq.symm)]
    omega

theorem createEmptyBoard_extends_cyclic (n : Nat) :
    ExtendsTo (createEmptyBoard n) (cyclicBoard n) := by
  constructor
  · constructor
    · rw [createEmptyBoard_length, cyclicBoard_length]
    · intro i
      by_cases hi : i < n
      · have h1 : (createEmptyBoard n).getD i [] = List.replicate n 0 := by
          rw [getD_nil_eq]
          unfold createEmptyBoard
          rw [replicate_get? _ n i hi]
          rfl
        have h2 : (cyclicBoard n).getD i []
            = (List.range n).map (fun j => (i + j) % n + 1) := by
          rw [getD_nil_eq, cyclicBoard_get? hi]
          rfl
        rw [h1, h2, List.length_replicate, List.length_map, List.length_range]
      · have h1 : (createEmptyBoard n).getD i [] = [] := by
          rw [getD_nil_eq]
          have : (createEmptyBoard n).get? i = none := by
            rw [List.get?_eq_none]
            rw [createEmptyBoard_length]
            omega
          rw [this]
          rfl
        have h2 : (cyclicBoard n).getD i [] = [] := by
          rw [getD_nil_eq]
          have : (cyclicBoard n).get? i = none := by
            rw [List.get?_eq_none]
            rw [cyclicBoard_length]
            omega
          rw [this]
          rfl
        rw [h1, h2]
  · intro r c v hv hv0
    exact absurd (createEmptyBoard_cellAt_some hv) hv0

theorem extendsTo_setCell {b C : SudokuBoard} (h : ExtendsTo b C) {r c v : Nat}
    (hv : cellAt C r c = some v) : ExtendsTo (setCell b r c v) C := by
  constructor
  · exact sameShape_setCell h.1 r c v
  · intro r' c' w hw hw0
    by_cases hrc : r' = r ∧ c' = c
    · rcases hrc with ⟨rfl, rfl⟩
      cases hcell : cellAt b r' c' with
      | none =>
        rw [setCell_of_cellAt_none v hcell] at hw
        exact h.2 _ _ _ hw hw0
      | some u =>
        rw [cellAt_setCell_self v (cellAt_bounds hcell).1 (cellAt_bounds hcell).2] at hw
        cases hw
        exact hv
    · have hne : r' ≠ r ∨ c' ≠ c := by tauto
      rw [cellAt_setCell_ne v hne] at hw
      exact h.2 _ _ _ hw hw0

theorem valid_row_unique {C : SudokuBoard} (hval : isBoardValid C = true)
    {r i j v : Nat} (hr : r < C.length) (hi : i < C.length) (hj : j < C.length)
    (hv : v ≠ 0) (h1 : cellAt C r i = some v) (h2 : cellAt C r j = some v) : i = j := by
  by_contra hne
  have hnd := ((isBoardValid_iff C).mp hval).1 r hr (some v) (by simpa using hv)
  have hcnt : (rowCells C r).count (some v)
      = ((List.range C.length).filter (fun k => cellAt C r k == some v)).length := by
    unfold rowCells
    rw [count_cells_map, List.countP_eq_length_filter]
  have hmem1 : i ∈ (List.range C.length).filter (fun k => cellAt C r k == some v) :=
    List.mem_filter.mpr ⟨List.mem_range.mpr hi, by simp [h1]⟩
  have hmem2 : j ∈ (List.range C.length).filter (fun k => cellAt C r k == some v) :=
    List.mem_filter.mpr ⟨List.mem_range.mpr hj, by simp [h2]⟩
  have := two_le_length_of_two_mem hmem1 hmem2 hne
  omega

theorem valid_col_unique {C : SudokuBoard} (hval : isBoardValid C = true)
    {c i j v : Nat} (hc : c < C.length) (hi : i < C.length) (hj : j < C.length)
    (hv : v ≠ 0) (h1 : cellAt C i c = some v) (h2 : cellAt C j c = some v) : i = j := by
  by_contra hne
  have hnd := ((isBoardValid_iff C).mp hval).2 c hc (some v) (by simpa using hv)
  have hcnt : (colCells C c).count (some v)
      = ((List.range C.length).filter (fun k => cellAt C k c == some v)).length := by
    unfold colCells
    rw [count_cells_map, List.countP_eq_length_filter]
  have hmem1 : i ∈ (List.range C.length).filter (fun k => cellAt C k c == some v) :=
    List.mem_filter.mpr ⟨List.mem_range.mpr hi, by simp [h1]⟩
  have hmem2 : j ∈ (List.range C.length).filter (fun k => cellAt C k c == some v) :=
    List.mem_filter.mpr ⟨List.mem_range.mpr hj, by simp [h2]⟩
  have := two_le_length_of_two_mem hmem1 hmem2 hne
  omega

theorem tryNums_complete (solve : Nat → SudokuBoard → Bool × SudokuBoard × Nat)
    (hrestore : ∀ k b b2 k2, solve k b = (false, b2, k2) → b2 = b)
    (r c : Nat) (b : SudokuBoard) (v : Nat)
    (hb : cellAt b r c = some 0)
    (hvalid : isValidPlacement b r c v = true)
    (hsucc : ∀ k, (solve k (setCell b r c v)).1 = true) :
    ∀ (l : List Nat) (k : Nat), v ∈ l → (tryNums solve r c l k b).1 = true
  | [], _, hv => absurd hv (List.not_mem_nil v)
  | num :: rest, k, hv => by
    simp only [tryNums]
    by_cases heq : num = v
    · subst heq
      rw [if_pos hvalid]
      rcases h : solve k (setCell b r c num) with ⟨ok, b2, k2⟩
      have hok := hsucc k
      rw [h] at hok
      simp only at hok
      subst hok
      rfl
    · have hrest : v ∈ rest := by
        rcases List.mem_cons.mp hv with h1 | h1
        · exact absurd h1.symm heq
        · exact h1
      by_cases hval2 : isValidPlacement b r c num = true
      · rw [if_pos hval2]
        rcases h : solve k (setCell b r c num) with ⟨ok, b2, k2⟩
        cases ok with
        | true => rfl
        | false =>
          simp only
          have hb2 : b2 = setCell b r c num := hrestore _ _ _ _ h
          rw [hb2, setCell_setCell, setCell_cancel hb]
          exact tryNums_complete solve hrestore r c b v hb hvalid hsucc rest k2 hrest
      · rw [if_neg hval2]
        exact tryNums_complete solve hrestore r c b v hb hvalid hsucc rest k hrest

theorem fillBoardAux_complete (R : Nat → Nat → List Nat) (hR : GoodR R)
    (C : SudokuBoard) (hCfull : countZeros C = 0) (hCval : isBoardValid C = true)
    (hCle : CellsLe C.length C) :
    ∀ (fuel : Nat) (b : SudokuBoard) (k : Nat),
      countZeros b < fuel → ExtendsTo b C →
      (fillBoardAux R fuel k b).1 = true
  | 0, _, _, hfuel, _ => absurd hfuel (by omega)
  | fuel+1, b, k, hfuel, hext => by
    simp only [fillBoardAux]
    cases hfind : findEmptyCell b with
    | none => rfl
    | some rc =>
      rcases rc with ⟨r, c⟩
      simp only
      obtain ⟨hb0, hrlt, hclt⟩ := findEmptyCell_some hfind
      have hlen : b.length = C.length := hext.1.1
      have hrowlen : c < (C.getD r []).length := by
        have h1 := (cellAt_bounds hb0).2
        rwa [hext.1.2 r] at h1
      obtain ⟨v, hv⟩ := cellAt_total (by rw [← hlen]; exact hrlt) hrowlen
      have hv0 : v ≠ 0 := by
        rcases cellAt_some hv with ⟨row, hrow, hval, _⟩
        exact (countZeros_eq_zero_iff C).mp hCfull row (List.get?_mem hrow)
          v (List.get?_mem hval)
      have hvle : v ≤ C.length := hCle r c v hv
      have hplace : isValidPlacement b r c v = true := by
        rw [isValidPlacement_iff]
        constructor
        · intro i hi hcontra
          have hCi : cellAt C r i = some v := hext.2 r i v hcontra hv0
          have hic : i = c := valid_row_unique hCval (by rw [← hlen]; exact hrlt)
            (by rw [← hlen]; exact hi) (by rw [← hlen]; exact hclt) hv0 hCi hv
          subst hic
          rw [hb0] at hcontra
          exact hv0 (Option.some.inj hcontra).symm
        · intro i hi hcontra
          have hCi : cellAt C i c = some v := hext.2 i c v hcontra hv0
          have hvC : cellAt C r c = some v := hv
          have hir : i = r := valid_col_unique hCval (by rw [← hlen]; exact hclt)
            (by rw [← hlen]; exact hi) (by rw [← hlen]; exact hrlt) hv0 hCi hvC
          subst hir
          rw [hb0] at hcontra
          exact hv0 (Option.some.inj hcontra).symm
      have hsucc : ∀ k', (fillBoardAux R fuel k' (setCell b r c v)).1 = true := by
        intro k'
        apply fillBoardAux_complete R hR C hCfull hCval hCle fuel (setCell b r c v) k'
        · have := countZeros_setCell_fill v hb0 hv0
          omega
        · exact extendsTo_setCell hext hv
      have hmemnums : v ∈ shuffleWith (R k b.length) (oneToN b.length) := by
        have hperm : (R k b.length).Perm (List.range (oneToN b.length).length) := by
          rw [oneToN_length]
          exact hR k b.length
        rw [(shuffleWith_perm hperm).mem_iff, mem_oneToN]
        exact ⟨by omega, by rw [hlen]; exact hvle⟩
      exact tryNums_complete (fillBoardAux R fuel)
        (fun k' b' b2 k2 h => fillBoardAux_false R fuel k' b' b2 k2 h)
        r c b v hb0 hplace hsucc _ (k + 1) hmemnums

theorem tryNums_spec (n : Nat) (solve : Nat → SudokuBoard → Bool × SudokuBoard × Nat)
    (hrestore : ∀ k b b2 k2, solve k b = (false, b2, k2) → b2 = b)
    (hsolve : ∀ k b out k2, b.length = n → squareB b = true → isBoardValid b = true →
      CellsLe n b → solve k b = (true, out, k2) →
      findEmptyCell out = none ∧ isBoardValid out = true ∧ squareB out = true ∧
      SameShape out b ∧ CellsLe n out)
    (r c : Nat) :
    ∀ (l : List Nat) (k : Nat) (b : SudokuBoard) (out : SudokuBoard) (k2 : Nat),
      b.length = n → squareB b = true → isBoardValid b = true → CellsLe n b →
      cellAt b r c = some 0 → (∀ num ∈ l, num ≤ n) →
      tryNums solve r c l k b = (true, out, k2) →
      findEmptyCell out = none ∧ isBoardValid out = true ∧ squareB out = true ∧
      SameShape out b ∧ CellsLe n out
  | [], k, b, out, k2, _, _, _, _, _, _, h => by simp [tryNums] at h
  | num :: rest, k, b, out, k2, hlen, hsq, hval, hle, hb, hnums, h => by
    simp only [tryNums] at h
    by_cases hvalid : isValidPlacement b r c num = true
    · rw [if_pos hvalid] at h
      split at h
      · next b3 k3 heq =>
        simp only [Prod.mk.injEq] at h
        obtain ⟨_, hout, _⟩ := h
        subst hout
        have props := hsolve k (setCell b r c num) b3 k3
          (by rw [setCell_length]; exact hlen)
          (squareB_setCell hsq r c num)
          (valid_setCell hval hb hvalid)
          (cellsLe_setCell hle (hnums num (List.mem_cons_self _ _)) r c)
          heq
        exact ⟨props.1, props.2.1, props.2.2.1,
          sameShape_trans props.2.2.2.1 (sameShape_setCell (sameShape_refl b) r c num),
          props.2.2.2.2⟩
      · next b3 k3 heq =>
        have hb3 : b3 = setCell b r c num := hrestore _ _ _ _ heq
        rw [hb3, setCell_setCell, setCell_cancel hb] at h
        exact tryNums_spec n solve hrestore hsolve r c rest k3 b out k2
          hlen hsq hval hle hb (fun x hx => hnums x (List.mem_cons_of_mem _ hx)) h
    · rw [if_neg hvalid] at h
      exact tryNums_spec n solve hrestore hsolve r c rest k b out k2
        hlen hsq hval hle hb (fun x hx => hnums x (List.mem_cons_of_mem _ hx)) h

theorem fillBoardAux_spec (R : Nat → Nat → List Nat) (n : Nat) :
    ∀ (fuel k : Nat) (b : SudokuBoard) (out : SudokuBoard) (k2 : Nat),
      b.length = n → squareB b = true → isBoardValid b = true → CellsLe n b →
      fillBoardAux R fuel k b = (true, out, k2) →
      findEmptyCell out = none ∧ isBoardValid out = true ∧ squareB out = true ∧
      SameShape out b ∧ CellsLe n out
  | 0, k, b, out, k2, _, _, _, _, h => by simp [fillBoardAux] at h
  | fuel+1, k, b, out, k2, hlen, hsq, hval, hle, h => by
    simp only [fillBoardAux] at h
    split at h
    · next hfind =>
      simp only [Prod.mk.injEq] at h
      obtain ⟨_, hout, _⟩ := h
      subst hout
      exact ⟨hfind, hval, hsq, sameShape_refl b, hle⟩
    · next rc r c heq =>
      have hb := (findEmptyCell_some heq).1
      refine tryNums_spec n (fillBoardAux R fuel)
        (fun k' b' b2 k2' h' => fillBoardAux_false R fuel k' b' b2 k2' h')
        (fun k' b' out' k2' h1 h2 h3 h4 h5 =>
          fillBoardAux_spec R n fuel k' b' out' k2' h1 h2 h3 h4 h5)
        r c _ (k + 1) b out k2 hlen hsq hval hle hb ?_ h
      intro num hnum
      have := mem_oneToN.mp (mem_of_mem_shuffleWith hnum)
      omega

/-- Claim C1: for every board size N in [4,9] and every sequence of
random choices of the internal shuffle (any `GoodR` oracle),
`generateBoard N` returns an N×N board with no empty cells, every cell
holding a value in 1..N, on which `isBoardValid` is true.  The proof is
the completeness of the exhaustive randomized backtracking: the empty
board extends to the cyclic Latin square, so the search always succeeds,
and every placement it commits is `isValidPlacement`-checked. -/
theorem C1_generateBoard_valid_full (N : Nat) (h4 : 4 ≤ N) (h9 : N ≤ 9)
    (R : Nat → Nat → List Nat) (hR : GoodR R) :
    (generateBoard R N).length = N ∧ squareB (generateBoard R N) = true ∧
    countZeros (generateBoard R N) = 0 ∧ isBoardValid (generateBoard R N) = true ∧
    (∀ row ∈ generateBoard R N, ∀ v ∈ row, 1 ≤ v ∧ v ≤ N) := by
  have hsucc : (fillBoardAux R (N * N + 1) 0 (createEmptyBoard N)).1 = true := by
    apply fillBoardAux_complete R hR (cyclicBoard N) (cyclicBoard_full N)
      (cyclicBoard_valid N)
      (by rw [cyclicBoard_length]; exact cyclicBoard_cellsLe N)
    · rw [createEmptyBoard_zeros]
      omega
    · exact createEmptyBoard_extends_cyclic N
  rcases hres : fillBoardAux R (N * N + 1) 0 (createEmptyBoard N) with ⟨ok, out, k2⟩
  rw [hres] at hsucc
  simp only at hsucc
  subst hsucc
  have props := fillBoardAux_spec R N (N * N + 1) 0 (createEmptyBoard N) out k2
    (createEmptyBoard_length N) (createEmptyBoard_square N) (createEmptyBoard_valid N)
    (fun r c v h => by rw [createEmptyBoard_cellAt_some h]; omega)
    hres
  obtain ⟨hempty, hval, hsq, hshape, hle⟩ := props
  have hlenout : out.length = N := by rw [hshape.1, createEmptyBoard_length]
  have hzeros : countZeros out = 0 := (findEmptyCell_none_iff hsq).mp hempty
  have hgen : generateBoard R N = out := by
    unfold generateBoard
    rw [hres]
  rw [hgen]
  refine ⟨hlenout, hsq, hzeros, hval, ?_⟩
  intro row hrow v hv
  have hv0 : v ≠ 0 := (countZeros_eq_zero_iff out).mp hzeros row hrow v hv
  obtain ⟨⟨i, hilt⟩, hget⟩ := List.mem_iff_get.mp hrow
  obtain ⟨⟨j, hjlt⟩, hgetj⟩ := List.mem_iff_get.mp hv
  have hrow? : out.get? i = some row := by rw [List.get?_eq_get hilt, hget]
  have hval? : row.get? j = some v := by rw [List.get?_eq_get hjlt, hgetj]
  have hcell : cellAt out i j = some v := cellAt_of_get hrow? hval?
  exact ⟨by omega, hlenout ▸ hle i j v hcell⟩

/-- Claim C1 instantiated at N = 4 with identity shuffles. -/
theorem C1_witness :
    (generateBoard (fun _ n => List.range n) 4).length = 4 ∧
    squareB (generateBoard (fun _ n => List.range n) 4) = true ∧
    countZeros (generateBoard (fun _ n => List.range n) 4) = 0 ∧
    isBoardValid (generateBoard (fun _ n => List.range n) 4) = true ∧
    (∀ row ∈ generateBoard (fun _ n => List.range n) 4, ∀ v ∈ row, 1 ≤ v ∧ v ≤ 4) :=
  C1_generateBoard_valid_full 4 (by omega) (by omega) (fun _ n => List.range n)
    (fun _ n => List.Perm.refl (List.range n))
